import Mathlib

/-!
Verification of the protobom SBOM core against its specification.

The development shallowly embeds the `pkg/sbom` package (entity model,
NodeList algebra, canonicalization, matching) and the writer package.
Go maps are modelled as association lists with unique keys; Go slices as
Lean lists; Go strings as Lean `String` (byte-level reasoning for the
identifier sanitizer uses `List Nat` of byte values).

The NodeList operations (`cleanEdges`, `Union`, `Intersect`, `Equal`,
`GetMatchingNode`) are not present in the provided sources (only their
tests are); they are modelled from the specification, as marked on each
definition.
-/

set_option maxHeartbeats 1000000

namespace Protobom

/-- Edge relationship types, mirroring the `Edge_Type` protobuf enum used by
`pkg/sbom/functions.go`. -/
inductive Edge_Type where
  | Edge_UNKNOWN
  | Edge_amends
  | Edge_ancestor
  | Edge_buildDependency
  | Edge_buildTool
  | Edge_contains
  | Edge_copy
  | Edge_dataFile
  | Edge_dependencyManifest
  | Edge_dependsOn
  | Edge_descendant
  | Edge_describes
  | Edge_devDependency
  | Edge_devTool
  | Edge_distributionArtifact
  | Edge_documentation
  | Edge_dynamicLink
  | Edge_example
  | Edge_expandedFromArchive
  | Edge_fileAdded
  | Edge_fileDeleted
  | Edge_fileModified
  | Edge_generates
  | Edge_metafile
  | Edge_optionalComponent
  | Edge_optionalDependency
  | Edge_other
  | Edge_packages
  | Edge_patch
  | Edge_prerequisite
  | Edge_providedDependency
  | Edge_requirementFor
  | Edge_runtimeDependency
  | Edge_specificationFor
  | Edge_staticLink
  | Edge_test
  | Edge_testCase
  | Edge_testDependency
  | Edge_testTool
  | Edge_variant
  deriving DecidableEq, Repr

export Edge_Type (Edge_UNKNOWN Edge_amends Edge_ancestor Edge_buildDependency
  Edge_buildTool Edge_contains Edge_copy Edge_dataFile Edge_dependencyManifest
  Edge_dependsOn Edge_descendant Edge_describes Edge_devDependency Edge_devTool
  Edge_distributionArtifact Edge_documentation Edge_dynamicLink Edge_example
  Edge_expandedFromArchive Edge_fileAdded Edge_fileDeleted Edge_fileModified
  Edge_generates Edge_metafile Edge_optionalComponent Edge_optionalDependency
  Edge_other Edge_packages Edge_patch Edge_prerequisite Edge_providedDependency
  Edge_requirementFor Edge_runtimeDependency Edge_specificationFor
  Edge_staticLink Edge_test Edge_testCase Edge_testDependency Edge_testTool
  Edge_variant)

/-- Hash algorithms, mirroring the `HashAlgorithm` protobuf enum. -/
inductive HashAlgorithm where
  | HashAlgorithm_UNKNOWN
  | HashAlgorithm_MD5
  | HashAlgorithm_SHA1
  | HashAlgorithm_SHA256
  | HashAlgorithm_SHA384
  | HashAlgorithm_SHA512
  | HashAlgorithm_SHA3_256
  | HashAlgorithm_SHA3_384
  | HashAlgorithm_SHA3_512
  | HashAlgorithm_BLAKE2B_256
  | HashAlgorithm_BLAKE2B_384
  | HashAlgorithm_BLAKE2B_512
  | HashAlgorithm_BLAKE3
  deriving DecidableEq, Repr

export HashAlgorithm (HashAlgorithm_UNKNOWN HashAlgorithm_MD5 HashAlgorithm_SHA1
  HashAlgorithm_SHA256 HashAlgorithm_SHA384 HashAlgorithm_SHA512
  HashAlgorithm_SHA3_256 HashAlgorithm_SHA3_384 HashAlgorithm_SHA3_512
  HashAlgorithm_BLAKE2B_256 HashAlgorithm_BLAKE2B_384 HashAlgorithm_BLAKE2B_512
  HashAlgorithm_BLAKE3)

/-- Node types (`Node_Type` protobuf enum): PACKAGE or FILE. -/
inductive Node_Type where
  | Node_PACKAGE
  | Node_FILE
  deriving DecidableEq, Repr

export Node_Type (Node_PACKAGE Node_FILE)

/-- Software identifier kind codes (`SoftwareIdentifierType` protobuf enum),
stored as their integer values in `Node.Identifiers`. -/
def SoftwareIdentifierType_UNKNOWN : Int := 0

def SoftwareIdentifierType_PURL : Int := 1

def SoftwareIdentifierType_CPE22 : Int := 2

def SoftwareIdentifierType_CPE23 : Int := 3

/-- EdgeTypeFromSPDX translates an SPDX relationship name into a protobom
`Edge_Type`, as in `pkg/sbom/functions.go` (a switch over the SPDX name,
defaulting to `Edge_UNKNOWN`). -/
def EdgeTypeFromSPDX (spdxName : String) : Edge_Type :=
  match spdxName with
  | "AMENDS" => Edge_amends
  | "ANCESTOR_OF" => Edge_ancestor
  | "BUILD_DEPENDENCY_OF" => Edge_buildDependency
  | "BUILD_TOOL_OF" => Edge_buildTool
  | "CONTAINS" => Edge_contains
  | "COPY_OF" => Edge_copy
  | "DATA_FILE_OF" => Edge_dataFile
  | "DEPENDENCY_MANIFEST_OF" => Edge_dependencyManifest
  | "DEPENDS_ON" => Edge_dependsOn
  | "DESCENDANT_OF" => Edge_descendant
  | "DESCRIBES" => Edge_describes
  | "DEV_DEPENDENCY_OF" => Edge_devDependency
  | "DEV_TOOL_OF" => Edge_devTool
  | "DISTRIBUTION_ARTIFACT" => Edge_distributionArtifact
  | "DOCUMENTATION_OF" => Edge_documentation
  | "DYNAMIC_LINK" => Edge_dynamicLink
  | "EXAMPLE_OF" => Edge_example
  | "EXPANDED_FROM_ARCHIVE" => Edge_expandedFromArchive
  | "FILE_ADDED" => Edge_fileAdded
  | "FILE_DELETED" => Edge_fileDeleted
  | "FILE_MODIFIED" => Edge_fileModified
  | "GENERATES" => Edge_generates
  | "METAFILE_OF" => Edge_metafile
  | "OPTIONAL_COMPONENT_OF" => Edge_optionalComponent
  | "OPTIONAL_DEPENDENCY_OF" => Edge_optionalDependency
  | "OTHER" => Edge_other
  | "PACKAGE_OF" => Edge_packages
  | "PATCH_FOR" => Edge_patch
  | "HAS_PREREQUISITE" => Edge_prerequisite
  | "PROVIDED_DEPENDENCY_OF" => Edge_providedDependency
  | "REQUIREMENT_DESCRIPTION_FOR" => Edge_requirementFor
  | "RUNTIME_DEPENDENCY_OF" => Edge_runtimeDependency
  | "SPECIFICATION_FOR" => Edge_specificationFor
  | "STATIC_LINK" => Edge_staticLink
  | "TEST_OF" => Edge_test
  | "TEST_CASE_OF" => Edge_testCase
  | "TEST_DEPENDENCY_OF" => Edge_testDependency
  | "TEST_TOOL_OF" => Edge_testTool
  | "VARIANT_OF" => Edge_variant
  | _ => Edge_UNKNOWN

/-- The SPDX relationship names handled by the switch in `EdgeTypeFromSPDX`. -/
def spdxRelationshipNames : List String :=
  ["AMENDS", "ANCESTOR_OF", "BUILD_DEPENDENCY_OF", "BUILD_TOOL_OF", "CONTAINS",
   "COPY_OF", "DATA_FILE_OF", "DEPENDENCY_MANIFEST_OF", "DEPENDS_ON",
   "DESCENDANT_OF", "DESCRIBES", "DEV_DEPENDENCY_OF", "DEV_TOOL_OF",
   "DISTRIBUTION_ARTIFACT", "DOCUMENTATION_OF", "DYNAMIC_LINK", "EXAMPLE_OF",
   "EXPANDED_FROM_ARCHIVE", "FILE_ADDED", "FILE_DELETED", "FILE_MODIFIED",
   "GENERATES", "METAFILE_OF", "OPTIONAL_COMPONENT_OF",
   "OPTIONAL_DEPENDENCY_OF", "OTHER", "PACKAGE_OF", "PATCH_FOR",
   "HAS_PREREQUISITE", "PROVIDED_DEPENDENCY_OF", "REQUIREMENT_DESCRIPTION_FOR",
   "RUNTIME_DEPENDENCY_OF", "SPECIFICATION_FOR", "STATIC_LINK", "TEST_OF",
   "TEST_CASE_OF", "TEST_DEPENDENCY_OF", "TEST_TOOL_OF", "VARIANT_OF"]

/-- CycloneDX hash algorithm names are plain strings in the external
cyclonedx-go library (`type HashAlgorithm string`); the named constants below
carry the library's values. -/
abbrev CDXHashAlgorithm := String

def HashAlgoMD5 : CDXHashAlgorithm := "MD5"

def HashAlgoSHA1 : CDXHashAlgorithm := "SHA-1"

def HashAlgoSHA256 : CDXHashAlgorithm := "SHA-256"

def HashAlgoSHA384 : CDXHashAlgorithm := "SHA-384"

def HashAlgoSHA512 : CDXHashAlgorithm := "SHA-512"

def HashAlgoSHA3_256 : CDXHashAlgorithm := "SHA3-256"

def HashAlgoSHA3_384 : CDXHashAlgorithm := "SHA3-384"

def HashAlgoSHA3_512 : CDXHashAlgorithm := "SHA3-512"

def HashAlgoBlake2b_256 : CDXHashAlgorithm := "BLAKE2b-256"

def HashAlgoBlake2b_384 : CDXHashAlgorithm := "BLAKE2b-384"

def HashAlgoBlake2b_512 : CDXHashAlgorithm := "BLAKE2b-512"

def HashAlgoBlake3 : CDXHashAlgorithm := "BLAKE3"

/-- HashAlgorithmFromCDX translates a CycloneDX hash algorithm into the
protobom `HashAlgorithm` enum, as in `pkg/sbom/functions.go` (a switch over
the cyclonedx-go constants, defaulting to `HashAlgorithm_UNKNOWN`). -/
def HashAlgorithmFromCDX (cdxAlgorithm : CDXHashAlgorithm) : HashAlgorithm :=
  if cdxAlgorithm = HashAlgoMD5 then HashAlgorithm_MD5
  else if cdxAlgorithm = HashAlgoSHA1 then HashAlgorithm_SHA1
  else if cdxAlgorithm = HashAlgoSHA256 then HashAlgorithm_SHA256
  else if cdxAlgorithm = HashAlgoSHA384 then HashAlgorithm_SHA384
  else if cdxAlgorithm = HashAlgoSHA512 then HashAlgorithm_SHA512
  else if cdxAlgorithm = HashAlgoSHA3_256 then HashAlgorithm_SHA3_256
  else if cdxAlgorithm = HashAlgoSHA3_384 then HashAlgorithm_SHA3_384
  else if cdxAlgorithm = HashAlgoSHA3_512 then HashAlgorithm_SHA3_512
  else if cdxAlgorithm = HashAlgoBlake2b_256 then HashAlgorithm_BLAKE2B_256
  else if cdxAlgorithm = HashAlgoBlake2b_384 then HashAlgorithm_BLAKE2B_384
  else if cdxAlgorithm = HashAlgoBlake2b_512 then HashAlgorithm_BLAKE2B_512
  else if cdxAlgorithm = HashAlgoBlake3 then HashAlgorithm_BLAKE3
  else HashAlgorithm_UNKNOWN

/-- The CycloneDX hash algorithm constants handled by `HashAlgorithmFromCDX`. -/
def cdxHashAlgorithmNames : List CDXHashAlgorithm :=
  [HashAlgoMD5, HashAlgoSHA1, HashAlgoSHA256, HashAlgoSHA384, HashAlgoSHA512,
   HashAlgoSHA3_256, HashAlgoSHA3_384, HashAlgoSHA3_512, HashAlgoBlake2b_256,
   HashAlgoBlake2b_384, HashAlgoBlake2b_512, HashAlgoBlake3]

/-- C8: every incoming external value outside the internal enumeration maps to
the explicit UNKNOWN sentinel: `EdgeTypeFromSPDX` returns `Edge_UNKNOWN` for
every SPDX relationship name not in its table, and `HashAlgorithmFromCDX`
returns `HashAlgorithm_UNKNOWN` for every CycloneDX hash algorithm not in its
table. -/
theorem mappings_unknown_sentinel :
    (∀ s : String, s ∉ spdxRelationshipNames →
      EdgeTypeFromSPDX s = Edge_UNKNOWN) ∧
    (∀ a : CDXHashAlgorithm, a ∉ cdxHashAlgorithmNames →
      HashAlgorithmFromCDX a = HashAlgorithm_UNKNOWN) := by
  constructor
  · intro s h
    simp only [spdxRelationshipNames, List.mem_cons, List.not_mem_nil, or_false,
      not_or] at h
    unfold EdgeTypeFromSPDX
    split <;> simp_all
  · intro a h
    simp only [cdxHashAlgorithmNames, List.mem_cons, List.not_mem_nil, or_false,
      not_or] at h
    obtain ⟨h1, h2, h3, h4, h5, h6, h7, h8, h9, h10, h11, h12⟩ := h
    simp [HashAlgorithmFromCDX, h1, h2, h3, h4, h5, h6, h7, h8, h9, h10, h11,
      h12]

/-- Witness for C8: `"GENERATED_FROM"` is an SPDX relationship name outside the
table (it is commented out in the source switch), and `"MD4"` is not a
CycloneDX hash algorithm handled by the table. -/
theorem mappings_unknown_sentinel_witness :
    EdgeTypeFromSPDX "GENERATED_FROM" = Edge_UNKNOWN ∧
    HashAlgorithmFromCDX "MD4" = HashAlgorithm_UNKNOWN :=
  ⟨mappings_unknown_sentinel.1 "GENERATED_FROM" (by decide),
   mappings_unknown_sentinel.2 "MD4" (by decide)⟩

/-- A node of the SBOM graph (§3.1): identified by `Id`, with descriptive
attributes, a hash map (algorithm name to digest) and an identifier map
(identifier-kind code to value). Go maps are modelled as association lists. -/
structure Node where
  Id : String := ""
  «Type» : Node_Type := Node_PACKAGE
  Name : String := ""
  Version : String := ""
  FileName : String := ""
  Summary : String := ""
  Hashes : List (String × String) := []
  Identifiers : List (Int × String) := []
  deriving DecidableEq, Repr

/-- A typed hyperedge (§3.2): `(Type, From, To*)`. -/
structure Edge where
  «Type» : Edge_Type := Edge_UNKNOWN
  From : String := ""
  To : List String := []
  deriving DecidableEq, Repr

/-- The graph container (§3.3): nodes, edges and root element Ids. -/
structure NodeList where
  Nodes : List Node := []
  Edges : List Edge := []
  RootElements : List String := []
  deriving DecidableEq, Repr

/-- The Ids of a list of nodes, in storage order. -/
def nodeIds (ns : List Node) : List String := ns.map Node.Id

/-- Look up the first node with the given Id (the ID index of §4.2). -/
def lookupNode (ns : List Node) (id : String) : Option Node :=
  ns.find? fun n => n.Id == id

/-- Append the elements of `ys` not already present to `xs`, preserving
first-seen order (the order-preserving set union used by canonicalization). -/
def listUnionStr (xs ys : List String) : List String :=
  ys.foldl (fun acc y => if y ∈ acc then acc else acc ++ [y]) xs

theorem mem_listUnionStr {x : String} :
    ∀ {ys xs : List String}, x ∈ listUnionStr xs ys ↔ x ∈ xs ∨ x ∈ ys := by
  intro ys
  induction ys with
  | nil => simp [listUnionStr]
  | cons y ys ih =>
    intro xs
    show x ∈ listUnionStr (if y ∈ xs then xs else xs ++ [y]) ys ↔ _
    rw [ih]
    by_cases hy : y ∈ xs
    · rw [if_pos hy]
      constructor
      · rintro (h | h)
        · exact Or.inl h
        · exact Or.inr (List.mem_cons_of_mem _ h)
      · rintro (h | h)
        · exact Or.inl h
        · rcases List.mem_cons.mp h with h | h
          · exact Or.inl (h ▸ hy)
          · exact Or.inr h
    · rw [if_neg hy]
      simp only [List.mem_append, List.mem_singleton, List.mem_cons]
      tauto

theorem nodup_listUnionStr :
    ∀ {ys xs : List String}, xs.Nodup → (listUnionStr xs ys).Nodup := by
  intro ys
  induction ys with
  | nil => intro xs h; exact h
  | cons y ys ih =>
    intro xs h
    show (listUnionStr (if y ∈ xs then xs else xs ++ [y]) ys).Nodup
    apply ih
    by_cases hy : y ∈ xs <;> simp [hy, List.nodup_append, h]

theorem sublist_listUnionStr {xs ys : List String} :
    ∀ {x : String}, x ∈ xs → x ∈ listUnionStr xs ys := by
  intro x hx
  exact mem_listUnionStr.mpr (Or.inl hx)

/-- Modelled from the spec: steps 1 and 2 of `cleanEdges` (§4.1), applied to
one edge. An edge whose `From` does not resolve is dropped (`none`); `To`
entries that do not resolve are removed; an edge whose `To` becomes empty is
dropped. The implementation (`nodelist.go`) is not among the provided
sources. -/
def pruneEdge (ids : List String) (e : Edge) : Option Edge :=
  if e.From ∈ ids then
    let to2 := e.To.filter fun t => decide (t ∈ ids)
    if to2.isEmpty then none else some ⟨e.Type, e.From, to2⟩
  else none

/-- The canonical edge key comparison: `f` and `e` share `(Type, From)`. -/
def sameEdgeKey (e f : Edge) : Bool := decide (f.Type = e.Type ∧ f.From = e.From)

/-- Modelled from the spec: step 3 of `cleanEdges` (§4.1). Surviving edges are
grouped by `(Type, From)`; each group becomes a single edge whose `To` is the
union of the group's `To` lists, preserving first-seen order; output order is
stable with respect to the first occurrence of each key. -/
def mergeEdges : List Edge → List Edge
  | [] => []
  | e :: rest =>
    ⟨e.Type, e.From,
      (rest.filter fun f => sameEdgeKey e f).foldl
        (fun acc f => listUnionStr acc f.To) (listUnionStr [] e.To)⟩ ::
      mergeEdges (rest.filter fun f => !sameEdgeKey e f)
termination_by es => es.length
decreasing_by
  simp only [List.length_cons]
  exact Nat.lt_succ_of_le (List.length_filter_le _ _)

/-- Modelled from the spec: the edges surviving steps 1 and 2 of `cleanEdges`
(§4.1), before merging. -/
def prunedEdges (nl : NodeList) : List Edge :=
  nl.Edges.filterMap (pruneEdge (nodeIds nl.Nodes))

/-- Modelled from the spec: `cleanEdges` (§4.1) prunes dangling `From` edges
and dangling `To` entries, then merges edges sharing `(Type, From)`. The
implementation (`nodelist.go`) is not among the provided sources. -/
def NodeList.cleanEdges (nl : NodeList) : NodeList :=
  { nl with Edges := mergeEdges (prunedEdges nl) }

theorem pruneEdge_sound {ids : List String} {e e' : Edge}
    (h : pruneEdge ids e = some e') :
    e'.From ∈ ids ∧ e'.To ≠ [] ∧ (∀ t ∈ e'.To, t ∈ ids) ∧
      e'.Type = e.Type ∧ e'.From = e.From ∧
      (∀ t ∈ e'.To, t ∈ e.To) ∧ (∀ t ∈ e.To, t ∈ ids → t ∈ e'.To) := by
  unfold pruneEdge at h
  by_cases hf : e.From ∈ ids
  · rw [if_pos hf] at h
    simp only at h
    by_cases hto : (e.To.filter fun t => decide (t ∈ ids)).isEmpty
    · rw [if_pos hto] at h; cases h
    · rw [if_neg hto] at h
      cases h
      refine ⟨hf, ?_, ?_, rfl, rfl, ?_, ?_⟩
      · intro hnil
        exact hto (List.isEmpty_iff.mpr hnil)
      · intro t ht
        have := List.of_mem_filter ht
        simpa using this
      · intro t ht
        exact List.mem_of_mem_filter ht
      · intro t ht hmem
        exact List.mem_filter.mpr ⟨ht, by simpa using hmem⟩
  · rw [if_neg hf] at h; cases h

theorem pruneEdge_complete {ids : List String} {e : Edge}
    (hf : e.From ∈ ids) {t : String} (ht : t ∈ e.To) (hmem : t ∈ ids) :
    ∃ e', pruneEdge ids e = some e' := by
  unfold pruneEdge
  rw [if_pos hf]
  simp only
  have hne : ¬(e.To.filter fun t => decide (t ∈ ids)).isEmpty := by
    have : t ∈ e.To.filter fun t => decide (t ∈ ids) :=
      List.mem_filter.mpr ⟨ht, by simpa using hmem⟩
    intro hemp
    rw [List.isEmpty_iff] at hemp
    rw [hemp] at this
    cases this
  rw [if_neg hne]
  exact ⟨_, rfl⟩

theorem mem_foldl_union {l : List Edge} :
    ∀ {init : List String} {x : String},
      (x ∈ l.foldl (fun acc f => listUnionStr acc f.To) init ↔
        x ∈ init ∨ ∃ f ∈ l, x ∈ f.To) := by
  induction l with
  | nil => simp
  | cons f l ih =>
    intro init x
    show x ∈ l.foldl _ (listUnionStr init f.To) ↔ _
    rw [ih, mem_listUnionStr]
    constructor
    · rintro ((h | h) | ⟨g, hg, hgt⟩)
      · exact Or.inl h
      · exact Or.inr ⟨f, List.mem_cons_self _ _, h⟩
      · exact Or.inr ⟨g, List.mem_cons_of_mem _ hg, hgt⟩
    · rintro (h | ⟨g, hg, hgt⟩)
      · exact Or.inl (Or.inl h)
      · rcases List.mem_cons.mp hg with rfl | hg
        · exact Or.inl (Or.inr hgt)
        · exact Or.inr ⟨g, hg, hgt⟩

theorem nodup_foldl_union {l : List Edge} :
    ∀ {init : List String}, init.Nodup →
      (l.foldl (fun acc f => listUnionStr acc f.To) init).Nodup := by
  induction l with
  | nil => intro init h; exact h
  | cons f l ih => intro init h; exact ih (nodup_listUnionStr h)

theorem mergeEdges_keys {es : List Edge} :
    ∀ e' ∈ mergeEdges es, ∃ f ∈ es, f.Type = e'.Type ∧ f.From = e'.From := by
  induction es using mergeEdges.induct with
  | case1 => simp [mergeEdges]
  | case2 e rest ih =>
    intro e' he'
    rw [mergeEdges] at he'
    rcases List.mem_cons.mp he' with rfl | he'
    · exact ⟨e, List.mem_cons_self _ _, rfl, rfl⟩
    · obtain ⟨f, hf, hk⟩ := ih e' he'
      exact ⟨f, List.mem_cons_of_mem _ (List.mem_of_mem_filter hf), hk⟩

theorem mergeEdges_to_char {es : List Edge} :
    ∀ e' ∈ mergeEdges es, ∀ t : String,
      (t ∈ e'.To ↔ ∃ f ∈ es, f.Type = e'.Type ∧ f.From = e'.From ∧ t ∈ f.To) := by
  induction es using mergeEdges.induct with
  | case1 => simp [mergeEdges]
  | case2 e rest ih =>
    intro e' he' t
    rw [mergeEdges] at he'
    rcases List.mem_cons.mp he' with rfl | he'
    · show t ∈ List.foldl _ _ _ ↔ _
      rw [mem_foldl_union, mem_listUnionStr]
      constructor
      · rintro ((h | h) | ⟨f, hf, hft⟩)
        · cases h
        · exact ⟨e, List.mem_cons_self _ _, rfl, rfl, h⟩
        · have hmem := List.mem_of_mem_filter hf
          have hkey := List.of_mem_filter hf
          simp only [sameEdgeKey, decide_eq_true_eq] at hkey
          exact ⟨f, List.mem_cons_of_mem _ hmem, hkey.1, hkey.2, hft⟩
      · rintro ⟨f, hf, hk1, hk2, hft⟩
        rcases List.mem_cons.mp hf with rfl | hf
        · exact Or.inl (Or.inr hft)
        · refine Or.inr ⟨f, List.mem_filter.mpr ⟨hf, ?_⟩, hft⟩
          simp only [sameEdgeKey, decide_eq_true_eq]
          exact ⟨hk1, hk2⟩
    · rw [ih e' he' t]
      constructor
      · rintro ⟨f, hf, hk⟩
        exact ⟨f, List.mem_cons_of_mem _ (List.mem_of_mem_filter hf), hk⟩
      · rintro ⟨f, hf, hk1, hk2, hft⟩
        obtain ⟨g, hg, hgk⟩ := mergeEdges_keys e' he'
        have hgrest := List.of_mem_filter hg
        simp only [Bool.not_eq_eq_eq_not, Bool.not_true, sameEdgeKey,
          decide_eq_false_iff_not] at hgrest
        rcases List.mem_cons.mp hf with rfl | hf
        · exact absurd ⟨hgk.1.trans hk1.symm, hgk.2.trans hk2.symm⟩ hgrest
        · refine ⟨f, List.mem_filter.mpr ⟨hf, ?_⟩, hk1, hk2, hft⟩
          simp only [Bool.not_eq_eq_eq_not, Bool.not_true, sameEdgeKey,
            decide_eq_false_iff_not]
          intro hcon
          exact hgrest ⟨hgk.1.trans (hk1.symm.trans hcon.1),
            hgk.2.trans (hk2.symm.trans hcon.2)⟩

theorem mergeEdges_pairwise {es : List Edge} :
    (mergeEdges es).Pairwise fun a b => ¬(a.Type = b.Type ∧ a.From = b.From) := by
  induction es using mergeEdges.induct with
  | case1 => simp [mergeEdges]
  | case2 e rest ih =>
    rw [mergeEdges]
    refine List.Pairwise.cons ?_ ih
    intro b hb hcon
    obtain ⟨g, hg, hgk⟩ := mergeEdges_keys b hb
    have hgrest := List.of_mem_filter hg
    simp only [Bool.not_eq_eq_eq_not, Bool.not_true, sameEdgeKey,
      decide_eq_false_iff_not] at hgrest
    exact hgrest ⟨hgk.1.trans hcon.1.symm, hgk.2.trans hcon.2.symm⟩

theorem mergeEdges_complete {es : List Edge} :
    ∀ e ∈ es, ∃ e' ∈ mergeEdges es, e'.Type = e.Type ∧ e'.From = e.From := by
  induction es using mergeEdges.induct with
  | case1 => simp [mergeEdges]
  | case2 e rest ih =>
    intro x hx
    rw [mergeEdges]
    rcases List.mem_cons.mp hx with rfl | hx
    · exact ⟨_, List.mem_cons_self _ _, rfl, rfl⟩
    · by_cases hk : sameEdgeKey e x
      · simp only [sameEdgeKey, decide_eq_true_eq] at hk
        exact ⟨_, List.mem_cons_self _ _, hk.1.symm, hk.2.symm⟩
      · obtain ⟨e', he', hk'⟩ :=
          ih x (List.mem_filter.mpr ⟨hx, by simpa using hk⟩)
        exact ⟨e', List.mem_cons_of_mem _ he', hk'⟩

theorem mergeEdges_nodupTo {es : List Edge} :
    ∀ e' ∈ mergeEdges es, e'.To.Nodup := by
  induction es using mergeEdges.induct with
  | case1 => simp [mergeEdges]
  | case2 e rest ih =>
    intro e' he'
    rw [mergeEdges] at he'
    rcases List.mem_cons.mp he' with rfl | he'
    · exact nodup_foldl_union (nodup_listUnionStr List.nodup_nil)
    · exact ih e' he'

theorem mergeEdges_toNonempty {es : List Edge} (h : ∀ e ∈ es, e.To ≠ []) :
    ∀ e' ∈ mergeEdges es, e'.To ≠ [] := by
  intro e' he'
  obtain ⟨f, hf, hk1, hk2⟩ := mergeEdges_keys e' he'
  have hfne := h f hf
  obtain ⟨t, ht⟩ := List.exists_mem_of_ne_nil _ hfne
  have : t ∈ e'.To :=
    (mergeEdges_to_char e' he' t).mpr ⟨f, hf, hk1, hk2, ht⟩
  exact List.ne_nil_of_mem this

theorem prunedEdges_sound {nl : NodeList} :
    ∀ f ∈ prunedEdges nl,
      f.From ∈ nodeIds nl.Nodes ∧ f.To ≠ [] ∧
        (∀ t ∈ f.To, t ∈ nodeIds nl.Nodes) := by
  intro f hf
  obtain ⟨e0, _, h0⟩ := List.mem_filterMap.mp hf
  obtain ⟨h1, h2, h3, _⟩ := pruneEdge_sound h0
  exact ⟨h1, h2, h3⟩

/-- Core contract of `cleanEdges`: survivors resolve fully with nonempty `To`,
and every original edge with a resolving `From` keeps each resolving `To`
entry in a surviving edge of the same key. -/
theorem cleanEdges_contract (nl : NodeList) :
    (∀ e ∈ nl.cleanEdges.Edges,
        e.From ∈ nodeIds nl.Nodes ∧ e.To ≠ [] ∧
          ∀ t ∈ e.To, t ∈ nodeIds nl.Nodes) ∧
    (∀ e ∈ nl.Edges, e.From ∈ nodeIds nl.Nodes →
        ∀ t ∈ e.To, t ∈ nodeIds nl.Nodes →
          ∃ e' ∈ nl.cleanEdges.Edges,
            e'.Type = e.Type ∧ e'.From = e.From ∧ t ∈ e'.To) := by
  constructor
  · intro e he
    have he' : e ∈ mergeEdges (prunedEdges nl) := he
    refine ⟨?_, ?_, ?_⟩
    · obtain ⟨f, hf, hk1, hk2⟩ := mergeEdges_keys e he'
      exact hk2 ▸ (prunedEdges_sound f hf).1
    · exact mergeEdges_toNonempty (fun f hf => (prunedEdges_sound f hf).2.1) e he'
    · intro t ht
      obtain ⟨f, hf, _, _, hft⟩ := (mergeEdges_to_char e he' t).mp ht
      exact (prunedEdges_sound f hf).2.2 t hft
  · intro e he hfrom t ht htid
    obtain ⟨f, hfeq⟩ := pruneEdge_complete hfrom ht htid
    have hfmem : f ∈ prunedEdges nl := List.mem_filterMap.mpr ⟨e, he, hfeq⟩
    obtain ⟨_, _, _, hk1, hk2, _, hkeep⟩ := pruneEdge_sound hfeq
    obtain ⟨e', he', hk1', hk2'⟩ := mergeEdges_complete f hfmem
    refine ⟨e', he', hk1'.trans hk1, hk2'.trans hk2, ?_⟩
    exact (mergeEdges_to_char e' he' t).mpr
      ⟨f, hfmem, hk1'.symm, hk2'.symm, hkeep t ht htid⟩

/-- C2: after `cleanEdges`, every edge whose `From` does not resolve to a node
Id has been dropped, every unresolved `To` entry has been removed, and edges
whose `To` emptied out have been dropped — every surviving edge has a
resolving `From`, a nonempty `To`, and only resolving `To` entries; and
conversely every original edge with a resolving `From` keeps each of its
resolving `To` entries in some surviving edge of the same `(Type, From)`
key. -/
theorem cleanEdges_prunes_dangling (nl : NodeList) :
    (∀ e ∈ nl.cleanEdges.Edges,
        e.From ∈ nodeIds nl.Nodes ∧ e.To ≠ [] ∧
          ∀ t ∈ e.To, t ∈ nodeIds nl.Nodes) ∧
    (∀ e ∈ nl.Edges, e.From ∈ nodeIds nl.Nodes →
        ∀ t ∈ e.To, t ∈ nodeIds nl.Nodes →
          ∃ e' ∈ nl.cleanEdges.Edges,
            e'.Type = e.Type ∧ e'.From = e.From ∧ t ∈ e'.To) :=
  cleanEdges_contract nl

/-- The NodeList of the seed scenario with a dangling `To` entry: nodes
node1 and node2, one edge whose `To` also names the missing node3. -/
def nlBrokenTo : NodeList :=
  { Nodes := [{ Id := "node1" }, { Id := "node2" }],
    Edges := [{ From := "node1", To := ["node2", "node3"] }],
    RootElements := ["node1"] }

/-- Witness for C2: the pruning contract instantiated on the dangling-`To`
seed scenario. -/
theorem cleanEdges_prunes_dangling_witness :
    (∀ e ∈ nlBrokenTo.cleanEdges.Edges,
        e.From ∈ nodeIds nlBrokenTo.Nodes ∧ e.To ≠ [] ∧
          ∀ t ∈ e.To, t ∈ nodeIds nlBrokenTo.Nodes) ∧
    (∀ e ∈ nlBrokenTo.Edges, e.From ∈ nodeIds nlBrokenTo.Nodes →
        ∀ t ∈ e.To, t ∈ nodeIds nlBrokenTo.Nodes →
          ∃ e' ∈ nlBrokenTo.cleanEdges.Edges,
            e'.Type = e.Type ∧ e'.From = e.From ∧ t ∈ e'.To) :=
  cleanEdges_prunes_dangling nlBrokenTo

/-- Keep-first deduplication relative to an already-seen set: the elements
not in `seen`, first occurrences only, in input order. -/
def dedupKeepFirstAux (seen : List String) : List String → List String
  | [] => []
  | x :: xs =>
    if x ∈ seen then dedupKeepFirstAux seen xs
    else x :: dedupKeepFirstAux (seen ++ [x]) xs

/-- Keep-first deduplication: each element at its first occurrence, in input
order — the order in which an append-if-absent union traverses its inputs. -/
def dedupKeepFirst (l : List String) : List String := dedupKeepFirstAux [] l

theorem dedupKeepFirstAux_cons (seen : List String) (x : String)
    (xs : List String) :
    dedupKeepFirstAux seen (x :: xs) =
      if x ∈ seen then dedupKeepFirstAux seen xs
      else x :: dedupKeepFirstAux (seen ++ [x]) xs := rfl

theorem listUnionStr_eq_append_aux :
    ∀ (ys xs : List String),
      listUnionStr xs ys = xs ++ dedupKeepFirstAux xs ys := by
  intro ys
  induction ys with
  | nil => intro xs; simp [listUnionStr, dedupKeepFirstAux]
  | cons y ys ih =>
    intro xs
    show listUnionStr (if y ∈ xs then xs else xs ++ [y]) ys = _
    by_cases hy : y ∈ xs
    · rw [if_pos hy, ih, dedupKeepFirstAux_cons, if_pos hy]
    · rw [if_neg hy, ih, dedupKeepFirstAux_cons, if_neg hy, List.append_assoc]
      rfl

theorem dedupKeepFirstAux_append :
    ∀ (ys zs seen : List String),
      dedupKeepFirstAux seen (ys ++ zs) =
        dedupKeepFirstAux seen ys ++
          dedupKeepFirstAux (seen ++ dedupKeepFirstAux seen ys) zs := by
  intro ys
  induction ys with
  | nil => intro zs seen; simp [dedupKeepFirstAux]
  | cons y ys ih =>
    intro zs seen
    show dedupKeepFirstAux seen (y :: (ys ++ zs)) = _
    by_cases hy : y ∈ seen
    · simp only [dedupKeepFirstAux_cons, if_pos hy]
      exact ih zs seen
    · simp only [dedupKeepFirstAux_cons, if_neg hy]
      rw [ih]
      simp [List.append_assoc]

theorem foldl_listUnionStr_eq :
    ∀ (ls : List (List String)) (acc : List String),
      ls.foldl listUnionStr acc = acc ++ dedupKeepFirstAux acc ls.flatten := by
  intro ls
  induction ls with
  | nil => intro acc; simp [dedupKeepFirstAux]
  | cons l ls ih =>
    intro acc
    show ls.foldl listUnionStr (listUnionStr acc l) = _
    rw [ih, listUnionStr_eq_append_aux, List.flatten_cons,
      dedupKeepFirstAux_append, List.append_assoc]

theorem mergeEdges_to_exact {es : List Edge} :
    ∀ e' ∈ mergeEdges es,
      e'.To = dedupKeepFirst
        (((es.filter fun f => sameEdgeKey e' f).map Edge.To).flatten) := by
  induction es using mergeEdges.induct with
  | case1 => simp [mergeEdges]
  | case2 e rest ih =>
    intro e' he'
    rw [mergeEdges] at he'
    rcases List.mem_cons.mp he' with rfl | he'
    · show (rest.filter fun f => sameEdgeKey e f).foldl
          (fun acc f => listUnionStr acc f.To) (listUnionStr [] e.To) =
        dedupKeepFirst ((((e :: rest).filter fun f => sameEdgeKey e f).map
          Edge.To).flatten)
      have hpos : sameEdgeKey e e = true := by simp [sameEdgeKey]
      rw [List.filter_cons, if_pos hpos, List.map_cons, List.flatten_cons]
      rw [show List.foldl (fun acc f => listUnionStr acc f.To)
            (listUnionStr [] e.To)
            (List.filter (fun f => sameEdgeKey e f) rest) =
          List.foldl listUnionStr (listUnionStr [] e.To)
            (List.map Edge.To (List.filter (fun f => sameEdgeKey e f) rest))
        from (List.foldl_map _ _ _ _).symm]
      rw [foldl_listUnionStr_eq, listUnionStr_eq_append_aux]
      unfold dedupKeepFirst
      rw [dedupKeepFirstAux_append]
      simp
    · have ihe := ih e' he'
      rw [ihe]
      have hekey : ¬(e.Type = e'.Type ∧ e.From = e'.From) := by
        obtain ⟨g, hg, hgk⟩ := mergeEdges_keys e' he'
        have hgrest := List.of_mem_filter hg
        simp only [Bool.not_eq_eq_eq_not, Bool.not_true, sameEdgeKey,
          decide_eq_false_iff_not] at hgrest
        intro hcon
        exact hgrest ⟨hgk.1.trans hcon.1.symm, hgk.2.trans hcon.2.symm⟩
      have hfilter :
          (rest.filter fun f => !sameEdgeKey e f).filter
              (fun f => sameEdgeKey e' f) =
            (e :: rest).filter fun f => sameEdgeKey e' f := by
        rw [List.filter_filter, List.filter_cons, if_neg]
        · apply List.filter_congr
          intro f _
          by_cases hp : sameEdgeKey e' f = true
          · have hef : sameEdgeKey e f = false := by
              simp only [sameEdgeKey, decide_eq_true_eq] at hp
              simp only [sameEdgeKey, decide_eq_false_iff_not]
              intro hcon
              exact hekey ⟨hcon.1.symm.trans hp.1, hcon.2.symm.trans hp.2⟩
            rw [hp, hef]
            rfl
          · rw [Bool.eq_false_iff.mpr hp]
            rfl
        · simp only [sameEdgeKey, decide_eq_true_eq]
          intro hcon
          exact hekey hcon
      rw [hfilter]

/-- C3: after `cleanEdges` no two edges share `(Type, From)`; every surviving
pruned edge is represented by exactly one merged edge of its key; each merged
edge's `To` holds exactly the entries of its group's `To` lists, without
duplicates; and it equals the keep-first deduplication of the group's `To`
lists concatenated in input order — the union preserving first-seen order. -/
theorem cleanEdges_merges_by_key (nl : NodeList) :
    (nl.cleanEdges.Edges.Pairwise
      fun a b => ¬(a.Type = b.Type ∧ a.From = b.From)) ∧
    (∀ f ∈ prunedEdges nl,
      ∃ e' ∈ nl.cleanEdges.Edges, e'.Type = f.Type ∧ e'.From = f.From) ∧
    (∀ e' ∈ nl.cleanEdges.Edges, e'.To.Nodup ∧
      ∀ t : String,
        (t ∈ e'.To ↔
          ∃ f ∈ prunedEdges nl,
            f.Type = e'.Type ∧ f.From = e'.From ∧ t ∈ f.To)) ∧
    (∀ e' ∈ nl.cleanEdges.Edges,
      e'.To = dedupKeepFirst
        ((((prunedEdges nl).filter fun f => sameEdgeKey e' f).map
          Edge.To).flatten)) := by
  refine ⟨mergeEdges_pairwise, ?_, ?_, ?_⟩
  · intro f hf
    exact mergeEdges_complete f hf
  · intro e' he'
    exact ⟨mergeEdges_nodupTo e' he', mergeEdges_to_char e' he'⟩
  · intro e' he'
    exact mergeEdges_to_exact e' he'

theorem lookupNode_eq_self {ns : List Node} (h : (nodeIds ns).Nodup) :
    ∀ {n : Node}, n ∈ ns → lookupNode ns n.Id = some n := by
  induction ns with
  | nil => intro n hn; cases hn
  | cons m ns ih =>
    intro n hn
    rcases List.mem_cons.mp hn with rfl | hn
    · simp [lookupNode, List.find?]
    · show List.find? _ (m :: ns) = _
      rw [List.find?_cons]
      have hm : m.Id ∉ nodeIds ns := by
        have := (List.nodup_cons.mp h).1
        simpa [nodeIds] using this
      have hne : (m.Id == n.Id) = false := by
        have : m.Id ≠ n.Id := fun hq => hm (hq ▸ List.mem_map_of_mem _ hn)
        simpa using this
      rw [hne]
      exact ih (List.nodup_cons.mp h).2 hn

theorem lookupNode_eq_none {ns : List Node} {id : String}
    (h : id ∉ nodeIds ns) : lookupNode ns id = none := by
  apply List.find?_eq_none.mpr
  intro n hn
  simp only [beq_iff_eq]
  intro hq
  exact h (hq ▸ List.mem_map_of_mem _ hn)

theorem lookupNode_some_mem {ns : List Node} {id : String} {n : Node}
    (h : lookupNode ns id = some n) : n ∈ ns ∧ n.Id = id :=
  ⟨List.mem_of_find?_eq_some h, by simpa using List.find?_some h⟩

theorem lookupNode_isSome {ns : List Node} {id : String}
    (h : id ∈ nodeIds ns) : ∃ n, lookupNode ns id = some n := by
  obtain ⟨n, hn, hid⟩ := List.mem_map.mp h
  cases hfind : lookupNode ns id with
  | some m => exact ⟨m, rfl⟩
  | none =>
    exfalso
    have := List.find?_eq_none.mp hfind n hn
    simp [hid] at this

/-- Modelled from the spec: `A.Union(B)` (§4.3.2) returns a fresh NodeList.
Nodes: all of `A`, with each node whose Id also occurs in `B` replaced by
`B`'s node (argument wins), then `B`'s nodes with new Ids appended. Edges:
`A`'s then `B`'s, canonicalized. RootElements: union preserving order of
first appearance. The implementation (`nodelist.go`) is not among the
provided sources. -/
def NodeList.Union (a b : NodeList) : NodeList :=
  let nodes :=
    (a.Nodes.map fun n => (lookupNode b.Nodes n.Id).getD n) ++
      b.Nodes.filter fun n => decide (n.Id ∉ nodeIds a.Nodes)
  NodeList.cleanEdges
    { Nodes := nodes, Edges := a.Edges ++ b.Edges,
      RootElements := listUnionStr a.RootElements b.RootElements }

/-- C1: `A.Union(B)`'s node set contains every node of `B`, contains every
node of `A` whose Id is not shared with `B` unchanged, and contains nothing
else — so for each Id present in both, `B`'s node stands in place of `A`'s
(argument wins). -/
theorem union_nodes_argument_wins (a b : NodeList)
    (hb : (nodeIds b.Nodes).Nodup) :
    (∀ n ∈ b.Nodes, n ∈ (a.Union b).Nodes) ∧
    (∀ n ∈ a.Nodes, n.Id ∉ nodeIds b.Nodes → n ∈ (a.Union b).Nodes) ∧
    (∀ n ∈ (a.Union b).Nodes,
      n ∈ b.Nodes ∨ (n ∈ a.Nodes ∧ n.Id ∉ nodeIds b.Nodes)) := by
  refine ⟨?_, ?_, ?_⟩
  · intro n hn
    show n ∈ _ ++ _
    rw [List.mem_append]
    by_cases ha : n.Id ∈ nodeIds a.Nodes
    · left
      obtain ⟨m, hm, hmid⟩ := List.mem_map.mp ha
      refine List.mem_map.mpr ⟨m, hm, ?_⟩
      rw [hmid, lookupNode_eq_self hb hn]
      rfl
    · right
      exact List.mem_filter.mpr ⟨hn, by simpa using ha⟩
  · intro n hn hid
    show n ∈ _ ++ _
    rw [List.mem_append]
    left
    refine List.mem_map.mpr ⟨n, hn, ?_⟩
    rw [lookupNode_eq_none hid]
    rfl
  · intro n hn
    have hn' : n ∈ _ ++ _ := hn
    rcases List.mem_append.mp hn' with h | h
    · obtain ⟨m, hm, hmeq⟩ := List.mem_map.mp h
      cases hfind : lookupNode b.Nodes m.Id with
      | some k =>
        rw [hfind] at hmeq
        simp only [Option.getD_some] at hmeq
        exact Or.inl (hmeq ▸ (lookupNode_some_mem hfind).1)
      | none =>
        rw [hfind] at hmeq
        simp only [Option.getD_none] at hmeq
        subst hmeq
        refine Or.inr ⟨hm, ?_⟩
        intro hcon
        obtain ⟨k, hk⟩ := lookupNode_isSome hcon
        rw [hfind] at hk
        cases hk
    · have := List.mem_filter.mp h
      exact Or.inl this.1

/-- The left NodeList of the Union/Intersect seed scenarios. -/
def nlLeft : NodeList :=
  { Nodes := [{ Id := "node1", Name := "package1", Version := "1.0.0" },
              { Id := "node2", Name := "package1", Version := "1.0.0" },
              { Id := "node3", Name := "package1", Version := "1.0.0" }],
    Edges := [{ «Type» := Edge_contains, From := "node1",
                To := ["node2", "node3"] },
              { «Type» := Edge_dependsOn, From := "node1", To := ["node3"] }],
    RootElements := [] }

/-- The right NodeList of the Union/Intersect seed scenarios: `node1` renamed
to "package2" v2.0.0 (the conflicting node) plus `node2`. -/
def nlRight : NodeList :=
  { Nodes := [{ Id := "node1", Name := "package2", Version := "2.0.0" },
              { Id := "node2", Name := "package1", Version := "1.0.0" }],
    Edges := [], RootElements := [] }

/-- Witness for C1: on the seed scenario, the union holds `B`'s `node1`
("package2" v2.0.0) in place of `A`'s, and the containment contract holds. -/
theorem union_nodes_argument_wins_witness :
    (lookupNode (nlLeft.Union nlRight).Nodes "node1" =
      some { Id := "node1", Name := "package2", Version := "2.0.0" }) ∧
    ((∀ n ∈ nlRight.Nodes, n ∈ (nlLeft.Union nlRight).Nodes) ∧
     (∀ n ∈ nlLeft.Nodes, n.Id ∉ nodeIds nlRight.Nodes →
        n ∈ (nlLeft.Union nlRight).Nodes) ∧
     (∀ n ∈ (nlLeft.Union nlRight).Nodes,
        n ∈ nlRight.Nodes ∨ (n ∈ nlLeft.Nodes ∧ n.Id ∉ nodeIds nlRight.Nodes))) :=
  ⟨by decide, union_nodes_argument_wins nlLeft nlRight (by decide)⟩

/-- For any NodeList, each canonicalized edge traces back to source edges of
the same `(Type, From)` key, both for its existence and for each of its `To`
entries (canonicalization never invents edges or endpoints). -/
theorem cleanEdges_edges_from_source {nl : NodeList} :
    ∀ e' ∈ nl.cleanEdges.Edges,
      (∃ e ∈ nl.Edges, e.Type = e'.Type ∧ e.From = e'.From) ∧
      ∀ t ∈ e'.To,
        ∃ e ∈ nl.Edges, e.Type = e'.Type ∧ e.From = e'.From ∧ t ∈ e.To := by
  intro e' he'
  have he'' : e' ∈ mergeEdges (prunedEdges nl) := he'
  constructor
  · obtain ⟨f, hf, hk1, hk2⟩ := mergeEdges_keys e' he''
    obtain ⟨e0, he0, h0⟩ := List.mem_filterMap.mp hf
    obtain ⟨_, _, _, hp1, hp2, _⟩ := pruneEdge_sound h0
    exact ⟨e0, he0, (hp1.symm.trans hk1), (hp2.symm.trans hk2)⟩
  · intro t ht
    obtain ⟨f, hf, hk1, hk2, hft⟩ := (mergeEdges_to_char e' he'' t).mp ht
    obtain ⟨e0, he0, h0⟩ := List.mem_filterMap.mp hf
    obtain ⟨_, _, _, hp1, hp2, hsub, _⟩ := pruneEdge_sound h0
    exact ⟨e0, he0, hp1.symm.trans hk1, hp2.symm.trans hk2, hsub t hft⟩

/-- Modelled from the spec: `A.Intersect(B)` (§4.3.3) returns a fresh NodeList
with only the nodes whose Id appears in both sides, retaining the argument's
node for shared Ids; edges are `A`'s, filtered by endpoint survival through
canonicalization (no edges are imported from `B`); RootElements are copied
from the argument, filtered to surviving Ids. The implementation
(`nodelist.go`) is not among the provided sources. -/
def NodeList.Intersect (a b : NodeList) : NodeList :=
  let nodes := a.Nodes.filterMap fun n => lookupNode b.Nodes n.Id
  NodeList.cleanEdges
    { Nodes := nodes, Edges := a.Edges,
      RootElements :=
        b.RootElements.filter fun r => decide (r ∈ nodeIds nodes) }

/-- C4: `A.Intersect(B)` keeps exactly the nodes whose Id appears on both
sides, always as `B`'s copy of the node (argument wins), and its edges are
exactly `A`'s edges restricted to surviving endpoints — every result edge and
every one of its `To` entries traces back to an edge of `A` with the same
`(Type, From)`, and no edge of `B` is imported. -/
theorem intersect_nodes_and_edges (a b : NodeList) :
    (∀ n ∈ (a.Intersect b).Nodes, n ∈ b.Nodes ∧ n.Id ∈ nodeIds a.Nodes) ∧
    (∀ id ∈ nodeIds a.Nodes, id ∈ nodeIds b.Nodes →
      ∃ n ∈ (a.Intersect b).Nodes, n.Id = id) ∧
    (∀ e' ∈ (a.Intersect b).Edges,
      (∃ e ∈ a.Edges, e.Type = e'.Type ∧ e.From = e'.From) ∧
      (e'.From ∈ nodeIds (a.Intersect b).Nodes ∧
        ∀ t ∈ e'.To, t ∈ nodeIds (a.Intersect b).Nodes) ∧
      ∀ t ∈ e'.To,
        ∃ e ∈ a.Edges, e.Type = e'.Type ∧ e.From = e'.From ∧ t ∈ e.To) ∧
    (∀ e ∈ a.Edges, e.From ∈ nodeIds (a.Intersect b).Nodes →
      ∀ t ∈ e.To, t ∈ nodeIds (a.Intersect b).Nodes →
        ∃ e' ∈ (a.Intersect b).Edges,
          e'.Type = e.Type ∧ e'.From = e.From ∧ t ∈ e'.To) := by
  refine ⟨?_, ?_, ?_, ?_⟩
  · intro n hn
    have hn' : n ∈ a.Nodes.filterMap fun m => lookupNode b.Nodes m.Id := hn
    obtain ⟨m, hm, hlook⟩ := List.mem_filterMap.mp hn'
    obtain ⟨hmem, hid⟩ := lookupNode_some_mem hlook
    exact ⟨hmem, hid ▸ List.mem_map_of_mem _ hm⟩
  · intro id hida hidb
    obtain ⟨m, hm, hmid⟩ := List.mem_map.mp hida
    obtain ⟨n, hn⟩ := lookupNode_isSome (hmid ▸ hidb)
    refine ⟨n, ?_, ?_⟩
    · show n ∈ a.Nodes.filterMap fun m => lookupNode b.Nodes m.Id
      exact List.mem_filterMap.mpr ⟨m, hm, hn⟩
    · exact (lookupNode_some_mem hn).2.trans hmid
  · intro e' he'
    have hsrc := cleanEdges_edges_from_source e' he'
    have hclean := (cleanEdges_contract
      { Nodes := a.Nodes.filterMap fun n => lookupNode b.Nodes n.Id,
        Edges := a.Edges,
        RootElements := b.RootElements.filter fun r =>
          decide (r ∈ nodeIds (a.Nodes.filterMap
            fun n => lookupNode b.Nodes n.Id)) }).1 e' he'
    exact ⟨hsrc.1, ⟨hclean.1, hclean.2.2⟩, hsrc.2⟩
  · intro e he hfrom t ht htid
    exact (cleanEdges_contract
      { Nodes := a.Nodes.filterMap fun n => lookupNode b.Nodes n.Id,
        Edges := a.Edges,
        RootElements := b.RootElements.filter fun r =>
          decide (r ∈ nodeIds (a.Nodes.filterMap
            fun n => lookupNode b.Nodes n.Id)) }).2 e he hfrom t ht htid

/-- Witness for C4: the intersection contract on the seed scenario, plus the
concrete result: the shared nodes survive as `B`'s copies and the surviving
restriction of `A`'s `contains` edge. -/
theorem intersect_nodes_and_edges_witness :
    ((nlLeft.Intersect nlRight).Nodes =
      [{ Id := "node1", Name := "package2", Version := "2.0.0" },
       { Id := "node2", Name := "package1", Version := "1.0.0" }]) ∧
    ((∀ n ∈ (nlLeft.Intersect nlRight).Nodes,
        n ∈ nlRight.Nodes ∧ n.Id ∈ nodeIds nlLeft.Nodes) ∧
     (∀ id ∈ nodeIds nlLeft.Nodes, id ∈ nodeIds nlRight.Nodes →
        ∃ n ∈ (nlLeft.Intersect nlRight).Nodes, n.Id = id) ∧
     (∀ e' ∈ (nlLeft.Intersect nlRight).Edges,
        (∃ e ∈ nlLeft.Edges, e.Type = e'.Type ∧ e.From = e'.From) ∧
        (e'.From ∈ nodeIds (nlLeft.Intersect nlRight).Nodes ∧
          ∀ t ∈ e'.To, t ∈ nodeIds (nlLeft.Intersect nlRight).Nodes) ∧
        ∀ t ∈ e'.To,
          ∃ e ∈ nlLeft.Edges,
            e.Type = e'.Type ∧ e.From = e'.From ∧ t ∈ e.To) ∧
     (∀ e ∈ nlLeft.Edges, e.From ∈ nodeIds (nlLeft.Intersect nlRight).Nodes →
        ∀ t ∈ e.To, t ∈ nodeIds (nlLeft.Intersect nlRight).Nodes →
          ∃ e' ∈ (nlLeft.Intersect nlRight).Edges,
            e'.Type = e.Type ∧ e'.From = e.From ∧ t ∈ e'.To)) :=
  ⟨by decide, intersect_nodes_and_edges nlLeft nlRight⟩

/-- The NodeList of the seed scenario with duplicated edges: two edges
`(contains, node1, ...)` that canonicalization must merge. -/
def nlDupEdges : NodeList :=
  { Nodes := [{ Id := "node1" }, { Id := "node2" }, { Id := "node3" }],
    Edges := [{ «Type» := Edge_contains, From := "node1", To := ["node2"] },
              { «Type» := Edge_contains, From := "node1", To := ["node3"] }],
    RootElements := ["node1"] }

/-- Witness for C3: the merge contract instantiated on the duplicated-edges
seed scenario, together with the concrete evaluation pinning the first-seen
order: the group of the `(contains, node1)` key consists of both original
edges in input order, and the keep-first deduplication of their concatenated
`To` lists is exactly `["node2", "node3"]` — so by the last component every
merged edge of that key carries `To = ["node2", "node3"]`, in that order. -/
theorem cleanEdges_merges_by_key_witness :
    ((nlDupEdges.cleanEdges.Edges.Pairwise
      fun a b => ¬(a.Type = b.Type ∧ a.From = b.From)) ∧
    (∀ f ∈ prunedEdges nlDupEdges,
      ∃ e' ∈ nlDupEdges.cleanEdges.Edges,
        e'.Type = f.Type ∧ e'.From = f.From) ∧
    (∀ e' ∈ nlDupEdges.cleanEdges.Edges, e'.To.Nodup ∧
      ∀ t : String,
        (t ∈ e'.To ↔
          ∃ f ∈ prunedEdges nlDupEdges,
            f.Type = e'.Type ∧ f.From = e'.From ∧ t ∈ f.To)) ∧
    (∀ e' ∈ nlDupEdges.cleanEdges.Edges,
      e'.To = dedupKeepFirst
        ((((prunedEdges nlDupEdges).filter fun f => sameEdgeKey e' f).map
          Edge.To).flatten))) ∧
    prunedEdges nlDupEdges =
      [{ «Type» := Edge_contains, From := "node1", To := ["node2"] },
       { «Type» := Edge_contains, From := "node1", To := ["node3"] }] ∧
    dedupKeepFirst
        ((((prunedEdges nlDupEdges).filter fun f =>
          sameEdgeKey { «Type» := Edge_contains, From := "node1", To := [] } f).map
          Edge.To).flatten) = ["node2", "node3"] :=
  ⟨cleanEdges_merges_by_key nlDupEdges, by decide, by decide⟩

/-- Edge comparison under `(Type, From, set(To))` (§4.5), as a proposition. -/
def EdgeSetEq (e f : Edge) : Prop :=
  e.Type = f.Type ∧ e.From = f.From ∧ ∀ t : String, (t ∈ e.To ↔ t ∈ f.To)

/-- Boolean test for `EdgeSetEq`. -/
def edgeSameSet (e f : Edge) : Bool :=
  decide (e.Type = f.Type) && decide (e.From = f.From) &&
    (e.To.all fun t => decide (t ∈ f.To)) &&
    (f.To.all fun t => decide (t ∈ e.To))

theorem edgeSameSet_iff {e f : Edge} : edgeSameSet e f = true ↔ EdgeSetEq e f := by
  simp only [edgeSameSet, EdgeSetEq, Bool.and_eq_true, decide_eq_true_eq,
    List.all_eq_true]
  constructor
  · rintro ⟨⟨⟨h1, h2⟩, h3⟩, h4⟩
    exact ⟨h1, h2, fun t => ⟨fun ht => h3 t ht, fun ht => h4 t ht⟩⟩
  · rintro ⟨h1, h2, h3⟩
    exact ⟨⟨⟨h1, h2⟩, fun t ht => (h3 t).mp ht⟩, fun t ht => (h3 t).mpr ht⟩

theorem EdgeSetEq.rfl {e : Edge} : EdgeSetEq e e := ⟨Eq.refl _, Eq.refl _, fun _ => Iff.rfl⟩

theorem EdgeSetEq.symm {e f : Edge} (h : EdgeSetEq e f) : EdgeSetEq f e :=
  ⟨h.1.symm, h.2.1.symm, fun t => (h.2.2 t).symm⟩

theorem EdgeSetEq.trans {e f g : Edge} (h : EdgeSetEq e f) (h' : EdgeSetEq f g) :
    EdgeSetEq e g :=
  ⟨h.1.trans h'.1, h.2.1.trans h'.2.1, fun t => (h.2.2 t).trans (h'.2.2 t)⟩

/-- Association-list lookup, modelling Go map indexing (`m[k]`). -/
def alookup {α β : Type} [DecidableEq α] : List (α × β) → α → Option β
  | [], _ => none
  | (k, v) :: rest, key => if k = key then some v else alookup rest key

theorem alookup_mem {α β : Type} [DecidableEq α] :
    ∀ {xs : List (α × β)} {k : α} {v : β},
      alookup xs k = some v → (k, v) ∈ xs := by
  intro xs
  induction xs with
  | nil => intro k v h; cases h
  | cons p rest ih =>
    intro k v h
    obtain ⟨k', v'⟩ := p
    unfold alookup at h
    by_cases hk : k' = k
    · rw [if_pos hk] at h
      injection h with hv
      subst hv
      subst hk
      exact List.mem_cons_self _ _
    · rw [if_neg hk] at h
      exact List.mem_cons_of_mem _ (ih h)

theorem alookup_eq_some_of_nodup {α β : Type} [DecidableEq α] :
    ∀ {xs : List (α × β)}, (xs.map Prod.fst).Nodup →
      ∀ {k : α} {v : β}, (k, v) ∈ xs → alookup xs k = some v := by
  intro xs
  induction xs with
  | nil => intro _ k v h; cases h
  | cons p rest ih =>
    intro hnd k v h
    obtain ⟨k', v'⟩ := p
    have hnd' : k' ∉ rest.map Prod.fst ∧ (rest.map Prod.fst).Nodup := by
      simpa using hnd
    show alookup ((k', v') :: rest) k = some v
    rcases List.mem_cons.mp h with heq | hmem
    · injection heq with h1 h2
      subst h1
      subst h2
      unfold alookup
      rw [if_pos rfl]
    · have hk : k' ≠ k := by
        intro hq
        exact hnd'.1 (hq ▸ List.mem_map_of_mem Prod.fst hmem)
      unfold alookup
      rw [if_neg hk]
      exact ih hnd'.2 hmem

/-- Extensional equality of two association-list maps: each entry of either
list is found, with the same value, by lookup in the other — Go map equality,
independent of entry order. -/
def AlistEqP {α β : Type} [DecidableEq α] (xs ys : List (α × β)) : Prop :=
  (∀ p ∈ xs, alookup ys p.1 = some p.2) ∧ ∀ p ∈ ys, alookup xs p.1 = some p.2

/-- Boolean test for `AlistEqP`. -/
def alistEq {α β : Type} [DecidableEq α] [DecidableEq β]
    (xs ys : List (α × β)) : Bool :=
  (xs.all fun p => decide (alookup ys p.1 = some p.2)) &&
    (ys.all fun p => decide (alookup xs p.1 = some p.2))

theorem alistEq_iff {α β : Type} [DecidableEq α] [DecidableEq β]
    {xs ys : List (α × β)} : alistEq xs ys = true ↔ AlistEqP xs ys := by
  simp [alistEq, AlistEqP, List.all_eq_true]

theorem alistEqP_refl {α β : Type} [DecidableEq α] {xs : List (α × β)}
    (h : (xs.map Prod.fst).Nodup) : AlistEqP xs xs :=
  ⟨fun _ hp => alookup_eq_some_of_nodup h hp,
   fun _ hp => alookup_eq_some_of_nodup h hp⟩

theorem alistEqP_symm {α β : Type} [DecidableEq α] {xs ys : List (α × β)}
    (h : AlistEqP xs ys) : AlistEqP ys xs := ⟨h.2, h.1⟩

theorem alistEqP_trans {α β : Type} [DecidableEq α] {xs ys zs : List (α × β)}
    (h : AlistEqP xs ys) (h' : AlistEqP ys zs) : AlistEqP xs zs := by
  constructor
  · intro p hp
    exact h'.1 (p.1, p.2) (alookup_mem (h.1 p hp))
  · intro p hp
    exact h.2 (p.1, p.2) (alookup_mem (h'.2 p hp))

theorem alistEqP_of_perm {α β : Type} [DecidableEq α] {xs ys : List (α × β)}
    (hnd : (xs.map Prod.fst).Nodup) (hp : xs.Perm ys) : AlistEqP xs ys := by
  have hnd' : (ys.map Prod.fst).Nodup := ((hp.map Prod.fst).nodup_iff).mp hnd
  exact ⟨fun p hmem => alookup_eq_some_of_nodup hnd' (hp.mem_iff.mp hmem),
    fun p hmem => alookup_eq_some_of_nodup hnd (hp.mem_iff.mpr hmem)⟩

/-- The §3.1 data-model invariant on one node: its hash and identifier maps
have unique keys (every Go map satisfies this; association lists with
duplicate keys do not represent a Go map). -/
def Node.WF (n : Node) : Prop :=
  (n.Hashes.map Prod.fst).Nodup ∧ (n.Identifiers.map Prod.fst).Nodup

instance (n : Node) : Decidable n.WF := by
  unfold Node.WF
  infer_instance

/-- Deep value equality of two nodes (§4.5): all scalar attributes equal and
the hash and identifier maps extensionally equal, independent of the order in
which map entries are listed. -/
def NodeDeepEq (n m : Node) : Prop :=
  n.Id = m.Id ∧ n.Type = m.Type ∧ n.Name = m.Name ∧ n.Version = m.Version ∧
  n.FileName = m.FileName ∧ n.Summary = m.Summary ∧
  AlistEqP n.Hashes m.Hashes ∧ AlistEqP n.Identifiers m.Identifiers

/-- Boolean test for `NodeDeepEq`. -/
def nodeDeepEq (n m : Node) : Bool :=
  decide (n.Id = m.Id) && decide (n.Type = m.Type) &&
    decide (n.Name = m.Name) && decide (n.Version = m.Version) &&
    decide (n.FileName = m.FileName) && decide (n.Summary = m.Summary) &&
    alistEq n.Hashes m.Hashes && alistEq n.Identifiers m.Identifiers

theorem nodeDeepEq_iff {n m : Node} : nodeDeepEq n m = true ↔ NodeDeepEq n m := by
  simp only [nodeDeepEq, NodeDeepEq, Bool.and_eq_true, decide_eq_true_eq,
    alistEq_iff]
  tauto

theorem nodeDeepEq_refl {n : Node} (h : Node.WF n) : NodeDeepEq n n :=
  ⟨rfl, rfl, rfl, rfl, rfl, rfl, alistEqP_refl h.1, alistEqP_refl h.2⟩

theorem nodeDeepEq_symm {n m : Node} (h : NodeDeepEq n m) : NodeDeepEq m n :=
  ⟨h.1.symm, h.2.1.symm, h.2.2.1.symm, h.2.2.2.1.symm, h.2.2.2.2.1.symm,
   h.2.2.2.2.2.1.symm, alistEqP_symm h.2.2.2.2.2.2.1,
   alistEqP_symm h.2.2.2.2.2.2.2⟩

theorem nodeDeepEq_trans {n m p : Node} (h : NodeDeepEq n m)
    (h' : NodeDeepEq m p) : NodeDeepEq n p :=
  ⟨h.1.trans h'.1, h.2.1.trans h'.2.1, h.2.2.1.trans h'.2.2.1,
   h.2.2.2.1.trans h'.2.2.2.1, h.2.2.2.2.1.trans h'.2.2.2.2.1,
   h.2.2.2.2.2.1.trans h'.2.2.2.2.2.1,
   alistEqP_trans h.2.2.2.2.2.2.1 h'.2.2.2.2.2.2.1,
   alistEqP_trans h.2.2.2.2.2.2.2 h'.2.2.2.2.2.2.2⟩

/-- Two nodes equal up to reordering of their map entries: same scalar
attributes and permuted `Hashes`/`Identifiers` association lists. -/
def NodePermEq (n m : Node) : Prop :=
  n.Id = m.Id ∧ n.Type = m.Type ∧ n.Name = m.Name ∧ n.Version = m.Version ∧
  n.FileName = m.FileName ∧ n.Summary = m.Summary ∧
  n.Hashes.Perm m.Hashes ∧ n.Identifiers.Perm m.Identifiers

instance (n m : Node) : Decidable (NodePermEq n m) := by
  unfold NodePermEq
  infer_instance

theorem NodePermEq.deepEq {n m : Node} (hwf : Node.WF n) (h : NodePermEq n m) :
    NodeDeepEq n m :=
  ⟨h.1, h.2.1, h.2.2.1, h.2.2.2.1, h.2.2.2.2.1, h.2.2.2.2.2.1,
   alistEqP_of_perm hwf.1 h.2.2.2.2.2.2.1,
   alistEqP_of_perm hwf.2 h.2.2.2.2.2.2.2⟩

/-- Two edges equal up to reordering of their `To` lists. -/
def EdgePermEq (e f : Edge) : Prop :=
  e.Type = f.Type ∧ e.From = f.From ∧ e.To.Perm f.To

instance (e f : Edge) : Decidable (EdgePermEq e f) := by
  unfold EdgePermEq
  infer_instance

theorem EdgePermEq.setEq {e f : Edge} (h : EdgePermEq e f) : EdgeSetEq e f :=
  ⟨h.1, h.2.1, fun _ => h.2.2.mem_iff⟩

/-- Modelled from the spec: `Equal` (§4.5) — deep, order-insensitive
structural equality: same set of nodes by deep value equality (map contents
compared extensionally, independently of entry order), same set of edges
under `(Type, From, set(To))`, same set of RootElements. The implementation
(`nodelist.go`) is not among the provided sources. -/
def NodeList.Equal (a b : NodeList) : Bool :=
  (a.Nodes.all fun n => b.Nodes.any fun m => nodeDeepEq n m) &&
    (b.Nodes.all fun m => a.Nodes.any fun n => nodeDeepEq m n) &&
    (a.Edges.all fun e => b.Edges.any fun f => edgeSameSet e f) &&
    (b.Edges.all fun f => a.Edges.any fun e => edgeSameSet f e) &&
    (a.RootElements.all fun r => decide (r ∈ b.RootElements)) &&
    (b.RootElements.all fun r => decide (r ∈ a.RootElements))

theorem Equal_iff {a b : NodeList} :
    NodeList.Equal a b = true ↔
      ((∀ n ∈ a.Nodes, ∃ m ∈ b.Nodes, NodeDeepEq n m) ∧
       (∀ m ∈ b.Nodes, ∃ n ∈ a.Nodes, NodeDeepEq m n) ∧
       (∀ e ∈ a.Edges, ∃ f ∈ b.Edges, EdgeSetEq e f) ∧
       (∀ f ∈ b.Edges, ∃ e ∈ a.Edges, EdgeSetEq f e) ∧
       (∀ r ∈ a.RootElements, r ∈ b.RootElements) ∧
       (∀ r ∈ b.RootElements, r ∈ a.RootElements)) := by
  simp only [NodeList.Equal, Bool.and_eq_true, List.all_eq_true,
    List.any_eq_true, decide_eq_true_eq, edgeSameSet_iff, nodeDeepEq_iff]
  tauto

/-- C7: `Equal` is an equivalence — reflexive on every NodeList whose maps
satisfy the §3.1 unique-key invariant, symmetric and transitive everywhere;
it holds exactly when the two NodeLists have the same set of nodes by deep
value equality (maps compared extensionally), the same set of edges under
`(Type, From, set(To))`, and the same set of RootElements; and it is
insensitive to the order of the Nodes, Edges and RootElements sequences, to
the iteration order of each node's hash and identifier maps, and to the
order of each edge's `To` list. -/
theorem equal_equivalence_order_insensitive :
    (∀ a : NodeList, (∀ n ∈ a.Nodes, Node.WF n) →
      NodeList.Equal a a = true) ∧
    (∀ a b : NodeList, NodeList.Equal a b = true → NodeList.Equal b a = true) ∧
    (∀ a b c : NodeList, NodeList.Equal a b = true →
      NodeList.Equal b c = true → NodeList.Equal a c = true) ∧
    (∀ a b : NodeList,
      (NodeList.Equal a b = true ↔
        ((∀ n ∈ a.Nodes, ∃ m ∈ b.Nodes, NodeDeepEq n m) ∧
         (∀ m ∈ b.Nodes, ∃ n ∈ a.Nodes, NodeDeepEq m n) ∧
         (∀ e ∈ a.Edges, ∃ f ∈ b.Edges, EdgeSetEq e f) ∧
         (∀ f ∈ b.Edges, ∃ e ∈ a.Edges, EdgeSetEq f e) ∧
         (∀ r ∈ a.RootElements, r ∈ b.RootElements) ∧
         (∀ r ∈ b.RootElements, r ∈ a.RootElements)))) ∧
    (∀ a b : NodeList, (∀ n ∈ a.Nodes, Node.WF n) →
      (∀ n ∈ a.Nodes, ∃ m ∈ b.Nodes, NodePermEq n m) →
      (∀ m ∈ b.Nodes, ∃ n ∈ a.Nodes, NodePermEq n m) →
      (∀ e ∈ a.Edges, ∃ f ∈ b.Edges, EdgePermEq e f) →
      (∀ f ∈ b.Edges, ∃ e ∈ a.Edges, EdgePermEq e f) →
      (∀ r ∈ a.RootElements, r ∈ b.RootElements) →
      (∀ r ∈ b.RootElements, r ∈ a.RootElements) →
      NodeList.Equal a b = true) := by
  refine ⟨?_, ?_, ?_, fun a b => Equal_iff, ?_⟩
  · intro a hwf
    exact Equal_iff.mpr
      ⟨fun n hn => ⟨n, hn, nodeDeepEq_refl (hwf n hn)⟩,
       fun n hn => ⟨n, hn, nodeDeepEq_refl (hwf n hn)⟩,
       fun e he => ⟨e, he, EdgeSetEq.rfl⟩, fun f hf => ⟨f, hf, EdgeSetEq.rfl⟩,
       fun r hr => hr, fun r hr => hr⟩
  · intro a b h
    obtain ⟨h1, h2, h3, h4, h5, h6⟩ := Equal_iff.mp h
    exact Equal_iff.mpr ⟨h2, h1, h4, h3, h6, h5⟩
  · intro a b c hab hbc
    obtain ⟨h1, h2, h3, h4, h5, h6⟩ := Equal_iff.mp hab
    obtain ⟨g1, g2, g3, g4, g5, g6⟩ := Equal_iff.mp hbc
    refine Equal_iff.mpr ⟨?_, ?_, ?_, ?_,
      fun r hr => g5 r (h5 r hr), fun r hr => h6 r (g6 r hr)⟩
    · intro n hn
      obtain ⟨m, hm, hnm⟩ := h1 n hn
      obtain ⟨p, hp, hmp⟩ := g1 m hm
      exact ⟨p, hp, nodeDeepEq_trans hnm hmp⟩
    · intro p hp
      obtain ⟨m, hm, hpm⟩ := g2 p hp
      obtain ⟨n, hn, hmn⟩ := h2 m hm
      exact ⟨n, hn, nodeDeepEq_trans hpm hmn⟩
    · intro e he
      obtain ⟨f, hf, hef⟩ := h3 e he
      obtain ⟨g, hg, hfg⟩ := g3 f hf
      exact ⟨g, hg, hef.trans hfg⟩
    · intro g hg
      obtain ⟨f, hf, hgf⟩ := g4 g hg
      obtain ⟨e, he, hfe⟩ := h4 f hf
      exact ⟨e, he, hgf.trans hfe⟩
  · intro a b hwf hn1 hn2 he1 he2 hr1 hr2
    refine Equal_iff.mpr ⟨?_, ?_, ?_, ?_, hr1, hr2⟩
    · intro n hn
      obtain ⟨m, hm, hperm⟩ := hn1 n hn
      exact ⟨m, hm, hperm.deepEq (hwf n hn)⟩
    · intro m hm
      obtain ⟨n, hn, hperm⟩ := hn2 m hm
      exact ⟨n, hn, nodeDeepEq_symm (hperm.deepEq (hwf n hn))⟩
    · intro e he
      obtain ⟨f, hf, hperm⟩ := he1 e he
      exact ⟨f, hf, hperm.setEq⟩
    · intro f hf
      obtain ⟨e, he, hperm⟩ := he2 f hf
      exact ⟨e, he, hperm.setEq.symm⟩

/-- A NodeList in the style of the `TestEqual` fixture, with two-entry hash
and identifier maps. -/
def nlEq1 : NodeList :=
  { Nodes := [{ Id := "nginx-arm64", Name := "nginx",
                Hashes := [("sha1", "aa11"), ("sha256", "bb22")] },
              { Id := "nginx-amd64", Name := "nginx",
                Hashes := [("sha1", "cc33")],
                Identifiers := [(1, "pkg:/apk/wolfi/nginx@1.21.1"),
                                (3, "cpe:2.3:a:nginx:nginx:1.21.1")] },
              { Id := "bash-4", Name := "bash",
                Identifiers := [(1, "pkg:/apk/wolfi/bash@4.0.1"),
                                (3, "cpe:2.3:a:bash:bash:5.0-4")] },
              { Id := "nginx-docs", Name := "nginx-docs" }],
    Edges := [{ «Type» := Edge_dependsOn, From := "nginx-amd64",
                To := ["bash-4", "nginx-docs"] },
              { «Type» := Edge_dependsOn, From := "nginx-arm64",
                To := ["bash-4"] }],
    RootElements := ["nginx-arm64", "nginx-amd64"] }

/-- The same NodeList with the Nodes, Edges and RootElements sequences
reordered, every map's entries reordered, and one `To` list reversed. -/
def nlEq2 : NodeList :=
  { Nodes := [{ Id := "nginx-docs", Name := "nginx-docs" },
              { Id := "bash-4", Name := "bash",
                Identifiers := [(3, "cpe:2.3:a:bash:bash:5.0-4"),
                                (1, "pkg:/apk/wolfi/bash@4.0.1")] },
              { Id := "nginx-amd64", Name := "nginx",
                Hashes := [("sha1", "cc33")],
                Identifiers := [(3, "cpe:2.3:a:nginx:nginx:1.21.1"),
                                (1, "pkg:/apk/wolfi/nginx@1.21.1")] },
              { Id := "nginx-arm64", Name := "nginx",
                Hashes := [("sha256", "bb22"), ("sha1", "aa11")] }],
    Edges := [{ «Type» := Edge_dependsOn, From := "nginx-arm64",
                To := ["bash-4"] },
              { «Type» := Edge_dependsOn, From := "nginx-amd64",
                To := ["nginx-docs", "bash-4"] }],
    RootElements := ["nginx-amd64", "nginx-arm64"] }

/-- The same NodeList with a duplicated `To` entry — the same `To` set. -/
def nlEq3 : NodeList :=
  { nlEq1 with
    Edges := [{ «Type» := Edge_dependsOn, From := "nginx-amd64",
                To := ["bash-4", "nginx-docs", "bash-4"] },
              { «Type» := Edge_dependsOn, From := "nginx-arm64",
                To := ["bash-4"] }] }

/-- A single-node NodeList whose only hash map lists sha1 before sha256. -/
def nlEqMapA : NodeList :=
  { Nodes := [{ Id := "n1",
                Hashes := [("sha1", "xx"), ("sha256", "yy")] }] }

/-- The same single-node NodeList with the hash map entries in the other
order. -/
def nlEqMapB : NodeList :=
  { Nodes := [{ Id := "n1",
                Hashes := [("sha256", "yy"), ("sha1", "xx")] }] }

/-- Witness for C7: `Equal` is true across a reordering of the sequences, of
every map's entries and of a `To` list (by the order-insensitivity
component); and, by direct evaluation, across a map-iteration-order change
alone and across a duplicated `To` entry. -/
theorem equal_equivalence_order_insensitive_witness :
    (NodeList.Equal nlEqMapA nlEqMapB = true ∧
      NodeList.Equal nlEq1 nlEq3 = true) ∧
    NodeList.Equal nlEq1 nlEq2 = true :=
  ⟨⟨by decide, by decide⟩,
    equal_equivalence_order_insensitive.2.2.2.2 nlEq1 nlEq2 (by decide)
      (by decide) (by decide) (by decide) (by decide) (by decide) (by decide)⟩

/-- The hash index of §4.2 queried at one `(algorithm, digest)` pair: the Ids
of the nodes recording digest `val` under algorithm `alg`. -/
def idsWithHash (nl : NodeList) (alg val : String) : List String :=
  nodeIds (nl.Nodes.filter fun n => decide (alookup n.Hashes alg = some val))

/-- The identifier index of §4.2 queried at one `(kind, value)` pair. -/
def idsWithIdentifier (nl : NodeList) (kind : Int) (val : String) : List String :=
  nodeIds (nl.Nodes.filter fun n => decide (alookup n.Identifiers kind = some val))

/-- Intersect a family of candidate Id sets (§4.4 step 2); `none` when the
family is empty (no evidence on this axis). -/
def intersectAxes : List (List String) → Option (List String)
  | [] => none
  | s :: rest =>
    some (rest.foldl (fun acc t => acc.filter fun x => decide (x ∈ t)) s)

/-- The candidate Ids agreed on by all of the probe's hashes (§4.4 steps 1-2),
or `none` when the probe carries no hashes. -/
def hashCandidates (nl : NodeList) (probe : Node) : Option (List String) :=
  intersectAxes (probe.Hashes.map fun h => idsWithHash nl h.1 h.2)

/-- The candidate Ids agreed on by all of the probe's identifiers (§4.4). -/
def identCandidates (nl : NodeList) (probe : Node) : Option (List String) :=
  intersectAxes (probe.Identifiers.map fun i => idsWithIdentifier nl i.1 i.2)

/-- The single error kind of the core (§7). -/
inductive MatchError where
  | Ambiguous
  deriving DecidableEq, Repr

/-- Modelled from the spec: `GetMatchingNode` (§4.4). Candidate sets are
collected per evidence axis and intersected; a probe hash with no matches
immediately yields no match; a unique hash candidate is returned; with two or
more hash candidates a unique identifier candidate inside the set breaks the
tie, otherwise the probe is Ambiguous; with no hashes the same logic runs on
identifiers alone; no evidence yields no match. The implementation
(`nodelist.go`) is not among the provided sources. -/
def GetMatchingNode (nl : NodeList) (probe : Node) :
    Except MatchError (Option Node) :=
  if probe.Hashes.any fun h => (idsWithHash nl h.1 h.2).isEmpty then
    Except.ok none
  else
    match hashCandidates nl probe with
    | some [] => Except.ok none
    | some [i] => Except.ok (lookupNode nl.Nodes i)
    | some (i :: j :: rest) =>
      match identCandidates nl probe with
      | some [k] =>
        if k ∈ i :: j :: rest then Except.ok (lookupNode nl.Nodes k)
        else Except.error MatchError.Ambiguous
      | _ => Except.error MatchError.Ambiguous
    | none =>
      match identCandidates nl probe with
      | some [] => Except.ok none
      | some [i] => Except.ok (lookupNode nl.Nodes i)
      | some (_ :: _ :: _) => Except.error MatchError.Ambiguous
      | none => Except.ok none

theorem mem_foldl_filter {l : List (List String)} :
    ∀ {init : List String} {x : String},
      x ∈ l.foldl (fun acc t => acc.filter fun y => decide (y ∈ t)) init →
        x ∈ init ∧ ∀ t ∈ l, x ∈ t := by
  induction l with
  | nil => intro init x h; exact ⟨h, by simp⟩
  | cons t l ih =>
    intro init x h
    obtain ⟨hmem, hall⟩ := ih h
    have := List.mem_filter.mp hmem
    refine ⟨this.1, ?_⟩
    intro u hu
    rcases List.mem_cons.mp hu with rfl | hu
    · simpa using this.2
    · exact hall u hu

theorem nodup_foldl_filter {l : List (List String)} :
    ∀ {init : List String}, init.Nodup →
      (l.foldl (fun acc t => acc.filter fun y => decide (y ∈ t)) init).Nodup := by
  induction l with
  | nil => intro init h; exact h
  | cons t l ih => intro init h; exact ih (List.Nodup.filter _ h)

theorem intersectAxes_mem {axes : List (List String)} {S : List String}
    (h : intersectAxes axes = some S) {x : String} (hx : x ∈ S) :
    ∀ ax ∈ axes, x ∈ ax := by
  cases axes with
  | nil => cases h
  | cons ax rest =>
    simp only [intersectAxes, Option.some.injEq] at h
    subst h
    obtain ⟨hmem, hall⟩ := mem_foldl_filter hx
    intro a ha
    rcases List.mem_cons.mp ha with rfl | ha
    · exact hmem
    · exact hall a ha

theorem intersectAxes_nodup {axes : List (List String)} {S : List String}
    (h : intersectAxes axes = some S) (hnd : ∀ ax ∈ axes, ax.Nodup) :
    S.Nodup := by
  cases axes with
  | nil => cases h
  | cons ax rest =>
    simp only [intersectAxes, Option.some.injEq] at h
    subst h
    exact nodup_foldl_filter (hnd ax (List.mem_cons_self _ _))

theorem mem_idsWithHash {nl : NodeList} {alg val x : String}
    (h : x ∈ idsWithHash nl alg val) : ∃ n ∈ nl.Nodes, n.Id = x := by
  obtain ⟨n, hn, hid⟩ := List.mem_map.mp h
  exact ⟨n, List.mem_of_mem_filter hn, hid⟩

theorem mem_idsWithIdentifier {nl : NodeList} {kind : Int} {val x : String}
    (h : x ∈ idsWithIdentifier nl kind val) : ∃ n ∈ nl.Nodes, n.Id = x := by
  obtain ⟨n, hn, hid⟩ := List.mem_map.mp h
  exact ⟨n, List.mem_of_mem_filter hn, hid⟩

theorem idsWithHash_nodup {nl : NodeList} (hWF : (nodeIds nl.Nodes).Nodup)
    {alg val : String} : (idsWithHash nl alg val).Nodup :=
  List.Sublist.nodup (List.Sublist.map _ (List.filter_sublist _)) hWF

theorem idsWithIdentifier_nodup {nl : NodeList}
    (hWF : (nodeIds nl.Nodes).Nodup) {kind : Int} {val : String} :
    (idsWithIdentifier nl kind val).Nodup :=
  List.Sublist.nodup (List.Sublist.map _ (List.filter_sublist _)) hWF

theorem hashCandidates_sound {nl : NodeList} {probe : Node} {S : List String}
    (h : hashCandidates nl probe = some S) {x : String} (hx : x ∈ S) :
    ∃ n ∈ nl.Nodes, n.Id = x := by
  unfold hashCandidates at h
  cases hh : probe.Hashes with
  | nil => rw [hh] at h; cases h
  | cons p ps =>
    rw [hh] at h
    have hax := intersectAxes_mem h hx (idsWithHash nl p.1 p.2) (by simp)
    exact mem_idsWithHash hax

theorem identCandidates_sound {nl : NodeList} {probe : Node} {S : List String}
    (h : identCandidates nl probe = some S) {x : String} (hx : x ∈ S) :
    ∃ n ∈ nl.Nodes, n.Id = x := by
  unfold identCandidates at h
  cases hh : probe.Identifiers with
  | nil => rw [hh] at h; cases h
  | cons p ps =>
    rw [hh] at h
    have hax := intersectAxes_mem h hx (idsWithIdentifier nl p.1 p.2) (by simp)
    exact mem_idsWithIdentifier hax

theorem hashCandidates_nodup {nl : NodeList} {probe : Node} {S : List String}
    (hWF : (nodeIds nl.Nodes).Nodup) (h : hashCandidates nl probe = some S) :
    S.Nodup := by
  refine intersectAxes_nodup h ?_
  intro ax hax
  obtain ⟨p, _, hp⟩ := List.mem_map.mp hax
  exact hp ▸ idsWithHash_nodup hWF

theorem identCandidates_nodup {nl : NodeList} {probe : Node} {S : List String}
    (hWF : (nodeIds nl.Nodes).Nodup) (h : identCandidates nl probe = some S) :
    S.Nodup := by
  refine intersectAxes_nodup h ?_
  intro ax hax
  obtain ⟨p, _, hp⟩ := List.mem_map.mp hax
  exact hp ▸ idsWithIdentifier_nodup hWF

theorem hashCandidates_no_empty_axis {nl : NodeList} {probe : Node}
    {S : List String} (h : hashCandidates nl probe = some S) {x : String}
    (hx : x ∈ S) :
    (probe.Hashes.any fun p => (idsWithHash nl p.1 p.2).isEmpty) = false := by
  rw [List.any_eq_false]
  intro p hp
  have := intersectAxes_mem h hx (idsWithHash nl p.1 p.2)
    (List.mem_map_of_mem _ hp)
  intro hemp
  rw [List.isEmpty_iff] at hemp
  rw [hemp] at this
  cases this

/-- C5: `GetMatchingNode` fails exactly on ambiguity: its only error kind is
`Ambiguous`; an error implies at least two distinct matching candidate nodes
survived intersection; two or more hash candidates with no unique identifier
tie-break always produce the `Ambiguous` error; and a probe hash matching no
node yields no node and no error. -/
theorem getMatchingNode_error_iff_ambiguous (nl : NodeList) (probe : Node)
    (hWF : (nodeIds nl.Nodes).Nodup) :
    (∀ err, GetMatchingNode nl probe = Except.error err →
      err = MatchError.Ambiguous) ∧
    (∀ err, GetMatchingNode nl probe = Except.error err →
      ∃ S, (hashCandidates nl probe = some S ∨
            (hashCandidates nl probe = none ∧
              identCandidates nl probe = some S)) ∧
        ∃ i ∈ S, ∃ j ∈ S, i ≠ j ∧
          (∃ n ∈ nl.Nodes, n.Id = i) ∧ ∃ m ∈ nl.Nodes, m.Id = j) ∧
    (∀ S, hashCandidates nl probe = some S → 2 ≤ S.length →
      (∀ k, identCandidates nl probe = some [k] → k ∉ S) →
      GetMatchingNode nl probe = Except.error MatchError.Ambiguous) ∧
    (∀ alg val, (alg, val) ∈ probe.Hashes → idsWithHash nl alg val = [] →
      GetMatchingNode nl probe = Except.ok none) := by
  refine ⟨?_, ?_, ?_, ?_⟩
  · intro err _
    cases err
    rfl
  · intro err herr
    unfold GetMatchingNode at herr
    by_cases hany :
        (probe.Hashes.any fun p => (idsWithHash nl p.1 p.2).isEmpty) = true
    · rw [if_pos hany] at herr
      exact Except.noConfusion herr
    · rw [if_neg hany] at herr
      rcases hhc : hashCandidates nl probe with _ | S
      · rw [hhc] at herr
        rcases hic : identCandidates nl probe with _ | I
        · rw [hic] at herr
          exact Except.noConfusion herr
        · rw [hic] at herr
          match I, hic, herr with
          | [], _, herr => exact Except.noConfusion herr
          | [k], _, herr => exact Except.noConfusion herr
          | k :: k2 :: ks, hic, _ =>
            have hnd := identCandidates_nodup hWF hic
            have hkk : k ≠ k2 := by
              intro hq
              exact (List.nodup_cons.mp hnd).1 (hq ▸ List.mem_cons_self _ _)
            exact ⟨k :: k2 :: ks, Or.inr ⟨rfl, rfl⟩, k, List.mem_cons_self _ _,
              k2, List.mem_cons_of_mem _ (List.mem_cons_self _ _), hkk,
              identCandidates_sound hic (List.mem_cons_self _ _),
              identCandidates_sound hic
                (List.mem_cons_of_mem _ (List.mem_cons_self _ _))⟩
      · rw [hhc] at herr
        match S, hhc, herr with
        | [], _, herr => exact Except.noConfusion herr
        | [i], _, herr => exact Except.noConfusion herr
        | i :: j :: rest, hhc, herr =>
          have hnd := hashCandidates_nodup hWF hhc
          have hij : i ≠ j := by
            intro hq
            exact (List.nodup_cons.mp hnd).1 (hq ▸ List.mem_cons_self _ _)
          have evtail : ∃ a ∈ i :: j :: rest, ∃ b ∈ i :: j :: rest, a ≠ b ∧
              (∃ n ∈ nl.Nodes, n.Id = a) ∧ ∃ m ∈ nl.Nodes, m.Id = b :=
            ⟨i, List.mem_cons_self _ _, j,
              List.mem_cons_of_mem _ (List.mem_cons_self _ _), hij,
              hashCandidates_sound hhc (List.mem_cons_self _ _),
              hashCandidates_sound hhc
                (List.mem_cons_of_mem _ (List.mem_cons_self _ _))⟩
          rcases hic : identCandidates nl probe with _ | I
          · exact ⟨i :: j :: rest, Or.inl rfl, evtail⟩
          · rw [hic] at herr
            match I, herr with
            | [], _ => exact ⟨i :: j :: rest, Or.inl rfl, evtail⟩
            | [k], herr =>
              have herr2 : (if k ∈ i :: j :: rest then
                  Except.ok (lookupNode nl.Nodes k)
                else Except.error MatchError.Ambiguous) =
                  Except.error err := herr
              by_cases hk : k ∈ i :: j :: rest
              · rw [if_pos hk] at herr2
                exact Except.noConfusion herr2
              · exact ⟨i :: j :: rest, Or.inl rfl, evtail⟩
            | k :: k2 :: ks, _ => exact ⟨i :: j :: rest, Or.inl rfl, evtail⟩
  · intro S hS h2 hk
    match S, hS, h2, hk with
    | [], _, h2, _ => simp at h2
    | [i], _, h2, _ => simp at h2
    | i :: j :: rest, hS, _, hk =>
      have hfalse := hashCandidates_no_empty_axis hS (List.mem_cons_self i _)
      unfold GetMatchingNode
      rw [if_neg (by rw [hfalse]; exact Bool.false_ne_true), hS]
      rcases hic : identCandidates nl probe with _ | I
      · rfl
      · match I, hic with
        | [], _ => rfl
        | [k], hic =>
          show (if k ∈ i :: j :: rest then Except.ok (lookupNode nl.Nodes k)
            else Except.error MatchError.Ambiguous) =
              Except.error MatchError.Ambiguous
          rw [if_neg (hk k hic)]
        | k :: k2 :: ks, _ => rfl
  · intro alg val hmem hempty
    unfold GetMatchingNode
    have hcond :
        (probe.Hashes.any fun p => (idsWithHash nl p.1 p.2).isEmpty) = true := by
      rw [List.any_eq_true]
      exact ⟨(alg, val), hmem, by rw [hempty]; rfl⟩
    rw [if_pos hcond]

/-- The two-nodes-share-a-hash fixture of `TestGetMatchingNode`. -/
def nlAmb : NodeList :=
  { Nodes := [{ Id := "node1",
                Hashes := [("sha1", "0b13c24e584ef7075f3d4fd3a9f8872c9fffa1b1")] },
              { Id := "node2",
                Hashes := [("sha1", "0b13c24e584ef7075f3d4fd3a9f8872c9fffa1b1")] }] }

/-- A probe carrying only the shared sha1. -/
def probeAmb : Node :=
  { Hashes := [("sha1", "0b13c24e584ef7075f3d4fd3a9f8872c9fffa1b1")] }

/-- Witness for C5: the error contract instantiated on the shared-hash
ambiguity fixture. -/
theorem getMatchingNode_error_iff_ambiguous_witness :
    (∀ err, GetMatchingNode nlAmb probeAmb = Except.error err →
      err = MatchError.Ambiguous) ∧
    (∀ err, GetMatchingNode nlAmb probeAmb = Except.error err →
      ∃ S, (hashCandidates nlAmb probeAmb = some S ∨
            (hashCandidates nlAmb probeAmb = none ∧
              identCandidates nlAmb probeAmb = some S)) ∧
        ∃ i ∈ S, ∃ j ∈ S, i ≠ j ∧
          (∃ n ∈ nlAmb.Nodes, n.Id = i) ∧ ∃ m ∈ nlAmb.Nodes, m.Id = j) ∧
    (∀ S, hashCandidates nlAmb probeAmb = some S → 2 ≤ S.length →
      (∀ k, identCandidates nlAmb probeAmb = some [k] → k ∉ S) →
      GetMatchingNode nlAmb probeAmb = Except.error MatchError.Ambiguous) ∧
    (∀ alg val, (alg, val) ∈ probeAmb.Hashes → idsWithHash nlAmb alg val = [] →
      GetMatchingNode nlAmb probeAmb = Except.ok none) :=
  getMatchingNode_error_iff_ambiguous nlAmb probeAmb (by decide)

/-- C6: when the probe's hashes intersect to two or more candidate Ids and its
identifiers intersect to exactly one Id inside that candidate set, the node
with that Id is returned with no error. -/
theorem getMatchingNode_identifier_tiebreak (nl : NodeList) (probe : Node)
    (S : List String) (hS : hashCandidates nl probe = some S)
    (h2 : 2 ≤ S.length) (k : String)
    (hI : identCandidates nl probe = some [k]) (hkS : k ∈ S) :
    ∃ n, GetMatchingNode nl probe = Except.ok (some n) ∧
      n ∈ nl.Nodes ∧ n.Id = k := by
  match S, hS, h2, hkS with
  | [], _, h2, _ => simp at h2
  | [i], _, h2, _ => simp at h2
  | i :: j :: rest, hS, _, hkS =>
    have hfalse := hashCandidates_no_empty_axis hS (List.mem_cons_self i _)
    have heval : GetMatchingNode nl probe =
        Except.ok (lookupNode nl.Nodes k) := by
      unfold GetMatchingNode
      rw [if_neg (by rw [hfalse]; exact Bool.false_ne_true), hS, hI]
      show (if k ∈ i :: j :: rest then Except.ok (lookupNode nl.Nodes k)
        else Except.error MatchError.Ambiguous) =
          Except.ok (lookupNode nl.Nodes k)
      rw [if_pos hkS]
    obtain ⟨n0, hn0, hid⟩ := hashCandidates_sound hS hkS
    have hkid : k ∈ nodeIds nl.Nodes := by
      rw [← hid]
      exact List.mem_map_of_mem Node.Id hn0
    obtain ⟨m, hm⟩ := lookupNode_isSome hkid
    refine ⟨m, ?_, (lookupNode_some_mem hm).1, (lookupNode_some_mem hm).2⟩
    rw [heval, hm]

/-- The shared-sha1, distinct-PURL fixture of `TestGetMatchingNode`. -/
def nlTie : NodeList :=
  { Nodes := [{ Id := "node1",
                Hashes := [("sha1", "0b13c24e584ef7075f3d4fd3a9f8872c9fffa1b1")],
                Identifiers := [(1, "pkg:/apk/alpine/bash@4.0.1")] },
              { Id := "node2",
                Hashes := [("sha1", "0b13c24e584ef7075f3d4fd3a9f8872c9fffa1b1")],
                Identifiers := [(1, "pkg:/apk/wolfi/bash@4.0.1")] }] }

/-- A probe carrying the shared sha1 and node2's PURL. -/
def probeTie : Node :=
  { Hashes := [("sha1", "0b13c24e584ef7075f3d4fd3a9f8872c9fffa1b1")],
    Identifiers := [(1, "pkg:/apk/wolfi/bash@4.0.1")] }

/-- Witness for C6: on the shared-hash fixture, the probe's PURL breaks the
tie and node2 is returned. -/
theorem getMatchingNode_identifier_tiebreak_witness :
    ∃ n, GetMatchingNode nlTie probeTie = Except.ok (some n) ∧
      n ∈ nlTie.Nodes ∧ n.Id = "node2" :=
  getMatchingNode_identifier_tiebreak nlTie probeTie ["node1", "node2"]
    (by decide) (by decide) "node2" (by decide) (by decide)

/-- Bytes allowed in a node identifier: the complement of the source's
`invalidIDCharsRe` class `[^a-zA-Z0-9-.]` — ASCII digits, letters, dash (45)
and dot (46). -/
def isValidIDChar (b : Nat) : Bool :=
  decide ((48 ≤ b ∧ b ≤ 57) ∨ (65 ≤ b ∧ b ≤ 90) ∨ (97 ≤ b ∧ b ≤ 122) ∨
    b = 45 ∨ b = 46)

/-- Decimal digit bytes (ASCII) of `n`, most significant first, as produced by
the `%d` format verb. -/
def digitsOfNat (n : Nat) : List Nat :=
  if n = 0 then [48] else ((Nat.digits 10 n).map fun d => 48 + d).reverse

/-- The separator bytes the source replaces with dashes: "/", ":" and " ". -/
def isSeparatorByte (b : Nat) : Bool := decide (b = 47 ∨ b = 58 ∨ b = 32)

/-- Replace known separators by dashes (first rewrite of each seed string). -/
def replaceSeparators (s : List Nat) : List Nat :=
  s.map fun b => if isSeparatorByte b then 45 else b

/-- Replace every invalid byte by a 'C'-prefixed decimal code, as the
`ReplaceAllStringFunc` callback does byte by byte (byte 67 is 'C'). -/
def escapeInvalid (s : List Nat) : List Nat :=
  s.flatMap fun b => if isValidIDChar b then [b] else 67 :: digitsOfNat b

/-- The full per-seed rewrite of `NewNodeIdentifier`: separators to dashes,
then invalid bytes to 'C'-codes. -/
def sanitizeSeed (s : List Nat) : List Nat := escapeInvalid (replaceSeparators s)

/-- The bytes of the `NodeIdentifierPrefix` constant "protobom". -/
def protobomBytes : List Nat := [112, 114, 111, 116, 111, 98, 111, 109]

/-- The bytes of the keyword "auto". -/
def autoBytes : List Nat := [97, 117, 116, 111]

/-- The bytes of the keyword "node". -/
def nodeBytes : List Nat := [110, 111, 100, 101]

/-- One iteration of the seed loop of `NewNodeIdentifier`: a keyword seed
("auto"/"node") joins the known prefixes while no valid seed has been taken
yet; any other seed is sanitized and, if nonempty, appended to the valid
prefixes. The accumulator is `(knownPrefixes, validPrefixes)`. -/
def nniStep (acc : List (List Nat) × List (List Nat)) (s : List Nat) :
    List (List Nat) × List (List Nat) :=
  if (s = autoBytes ∨ s = nodeBytes) ∧ acc.2 = [] then (acc.1 ++ [s], acc.2)
  else
    let s2 := sanitizeSeed s
    if s2 = [] then acc else (acc.1, acc.2 ++ [s2])

/-- Join with a one-byte separator, as `strings.Join(elems, sep)`. -/
def joinBytes (sep : Nat) : List (List Nat) → List Nat
  | [] => []
  | [x] => x
  | x :: y :: xs => x ++ sep :: joinBytes sep (y :: xs)

/-- The final valid-prefix list of `NewNodeIdentifier`: the UUID replaces an
empty list, and the first element gets an extra leading dash
(`validPrefixes[0] = "-" + validPrefixes[0]`). -/
def nniValidPrefixes (uuid : List Nat) (kv2 : List (List Nat)) :
    List (List Nat) :=
  match if kv2 = [] then [uuid] else kv2 with
  | [] => []
  | v :: vs => (45 :: v) :: vs

/-- NewNodeIdentifier of `pkg/sbom/functions.go`, at the byte level. The UUID
generated when no seed survives is passed explicitly (`uuid.New().String()`
is an effect of the external uuid library). -/
def NewNodeIdentifier (uuid : List Nat) (prefixes : List (List Nat)) :
    List Nat :=
  joinBytes 45 ((prefixes.foldl nniStep ([protobomBytes], [])).1 ++
    nniValidPrefixes uuid (prefixes.foldl nniStep ([protobomBytes], [])).2)

theorem digitsOfNat_valid {n : Nat} : ∀ b ∈ digitsOfNat n, isValidIDChar b = true := by
  intro b hb
  unfold digitsOfNat at hb
  by_cases hz : n = 0
  · rw [if_pos hz] at hb
    rcases List.mem_singleton.mp hb with rfl
    decide
  · rw [if_neg hz] at hb
    rw [List.mem_reverse] at hb
    obtain ⟨d, hd, hdb⟩ := List.mem_map.mp hb
    have hlt : d < 10 := Nat.digits_lt_base (by norm_num) hd
    subst hdb
    simp only [isValidIDChar, decide_eq_true_eq]
    left
    omega

theorem sanitizeSeed_valid {s : List Nat} :
    ∀ b ∈ sanitizeSeed s, isValidIDChar b = true := by
  intro b hb
  unfold sanitizeSeed escapeInvalid at hb
  obtain ⟨c, _, hc⟩ := List.mem_flatMap.mp hb
  by_cases hv : isValidIDChar c
  · rw [if_pos hv] at hc
    rcases List.mem_singleton.mp hc with rfl
    exact hv
  · rw [if_neg hv] at hc
    rcases List.mem_cons.mp hc with rfl | hc
    · decide
    · exact digitsOfNat_valid b hc

/-- The known-prefixes list is "protobom" followed by keyword seeds; the
valid-prefixes list holds only fully valid byte strings. -/
def nniAccOK (acc : List (List Nat) × List (List Nat)) : Prop :=
  (∃ ks, acc.1 = protobomBytes :: ks ∧
    ∀ k ∈ ks, ∀ b ∈ k, isValidIDChar b = true) ∧
  ∀ v ∈ acc.2, ∀ b ∈ v, isValidIDChar b = true

theorem foldl_nniStep_inv :
    ∀ (prefixes : List (List Nat)) (acc : List (List Nat) × List (List Nat)),
      nniAccOK acc → nniAccOK (prefixes.foldl nniStep acc) := by
  intro prefixes
  induction prefixes with
  | nil => intro acc h; exact h
  | cons s rest ih =>
    intro acc h
    apply ih
    obtain ⟨⟨ks, hks, hksv⟩, hvalid⟩ := h
    unfold nniStep
    by_cases hcond : (s = autoBytes ∨ s = nodeBytes) ∧ acc.2 = []
    · rw [if_pos hcond]
      refine ⟨⟨ks ++ [s], by rw [hks]; rfl, ?_⟩, hvalid⟩
      intro k hk b hb
      rcases List.mem_append.mp hk with hk | hk
      · exact hksv k hk b hb
      · rcases List.mem_singleton.mp hk with rfl
        rcases hcond.1 with rfl | rfl
        · have hv : ∀ x ∈ autoBytes, isValidIDChar x = true := by decide
          exact hv b hb
        · have hv : ∀ x ∈ nodeBytes, isValidIDChar x = true := by decide
          exact hv b hb
    · rw [if_neg hcond]
      simp only
      by_cases hs2 : sanitizeSeed s = []
      · rw [if_pos hs2]
        exact ⟨⟨ks, hks, hksv⟩, hvalid⟩
      · rw [if_neg hs2]
        refine ⟨⟨ks, hks, hksv⟩, ?_⟩
        intro v hv b hb
        rcases List.mem_append.mp hv with hv | hv
        · exact hvalid v hv b hb
        · rcases List.mem_singleton.mp hv with rfl
          exact sanitizeSeed_valid b hb

theorem joinBytes_valid {sep : Nat} (hsep : isValidIDChar sep = true) :
    ∀ ls : List (List Nat), (∀ l ∈ ls, ∀ b ∈ l, isValidIDChar b = true) →
      ∀ b ∈ joinBytes sep ls, isValidIDChar b = true := by
  intro ls
  induction ls with
  | nil => intro _ b hb; cases hb
  | cons x xs ih =>
    intro h b hb
    cases xs with
    | nil => exact h x (List.mem_singleton_self _) b hb
    | cons y ys =>
      rcases List.mem_append.mp hb with hb | hb
      · exact h x (List.mem_cons_self _ _) b hb
      · rcases List.mem_cons.mp hb with rfl | hb
        · exact hsep
        · exact ih (fun l hl => h l (List.mem_cons_of_mem _ hl)) b hb

theorem joinBytes_cons_of_ne_nil {sep : Nat} {x : List Nat}
    {ys : List (List Nat)} (h : ys ≠ []) :
    joinBytes sep (x :: ys) = x ++ sep :: joinBytes sep ys := by
  cases ys with
  | nil => exact absurd rfl h
  | cons y ys => rfl

/-- C9: for every list of seed strings (the UUID taken when no seed survives
being hex-and-dash bytes), `NewNodeIdentifier` returns a nonempty byte string
that starts with "protobom-" and contains only identifier-safe bytes (ASCII
alphanumerics, dash, dot): separators were turned into dashes and every other
invalid byte into a 'C'-prefixed decimal code. -/
theorem newNodeIdentifier_safe (uuid : List Nat) (prefixes : List (List Nat))
    (huuid : ∀ b ∈ uuid, isValidIDChar b = true) :
    NewNodeIdentifier uuid prefixes ≠ [] ∧
    (∃ rest, NewNodeIdentifier uuid prefixes = protobomBytes ++ 45 :: rest) ∧
    ∀ b ∈ NewNodeIdentifier uuid prefixes, isValidIDChar b = true := by
  have hinv := foldl_nniStep_inv prefixes ([protobomBytes], [])
    ⟨⟨[], rfl, by intro k hk; cases hk⟩, by intro v hv; cases hv⟩
  obtain ⟨⟨ks, hks, hksv⟩, hvalid⟩ := hinv
  obtain ⟨v0, vs, hv3, hv0, hvs⟩ : ∃ v0 vs,
      nniValidPrefixes uuid (prefixes.foldl nniStep ([protobomBytes], [])).2 =
        (45 :: v0) :: vs ∧ (∀ b ∈ v0, isValidIDChar b = true) ∧
        ∀ w ∈ vs, ∀ b ∈ w, isValidIDChar b = true := by
    cases hcc : (prefixes.foldl nniStep ([protobomBytes], [])).2 with
    | nil =>
      refine ⟨uuid, [], ?_, huuid, by intro w hw; cases hw⟩
      unfold nniValidPrefixes
      rw [if_pos rfl]
    | cons a as =>
      refine ⟨a, as, ?_, ?_, ?_⟩
      · unfold nniValidPrefixes
        rw [if_neg (List.cons_ne_nil a as)]
      · exact hvalid a (hcc ▸ List.mem_cons_self _ _)
      · intro w hw
        exact hvalid w (hcc ▸ List.mem_cons_of_mem _ hw)
  have hshape : NewNodeIdentifier uuid prefixes =
      joinBytes 45 ((prefixes.foldl nniStep ([protobomBytes], [])).1 ++
        (45 :: v0) :: vs) := by
    unfold NewNodeIdentifier
    rw [hv3]
  have hall : ∀ l ∈ (prefixes.foldl nniStep ([protobomBytes], [])).1 ++
      (45 :: v0) :: vs, ∀ b ∈ l, isValidIDChar b = true := by
    intro l hl
    rcases List.mem_append.mp hl with hl | hl
    · rw [hks] at hl
      rcases List.mem_cons.mp hl with rfl | hl
      · intro b hb
        have hv : ∀ x ∈ protobomBytes, isValidIDChar x = true := by decide
        exact hv b hb
      · exact hksv l hl
    · rcases List.mem_cons.mp hl with rfl | hl
      · intro b hb
        rcases List.mem_cons.mp hb with rfl | hb
        · decide
        · exact hv0 b hb
      · exact hvs l hl
  have hchain : (prefixes.foldl nniStep ([protobomBytes], [])).1 ++
      (45 :: v0) :: vs = protobomBytes :: (ks ++ (45 :: v0) :: vs) := by
    rw [hks]
    rfl
  have hne : ks ++ (45 :: v0) :: vs ≠ [] := by
    intro hq
    exact List.cons_ne_nil _ _ (List.append_eq_nil.mp hq).2
  have hjoin : NewNodeIdentifier uuid prefixes =
      protobomBytes ++ 45 :: joinBytes 45 (ks ++ (45 :: v0) :: vs) := by
    rw [hshape, hchain, joinBytes_cons_of_ne_nil hne]
  refine ⟨?_, ⟨joinBytes 45 (ks ++ (45 :: v0) :: vs), hjoin⟩, ?_⟩
  · rw [hjoin]
    intro hq
    have := (List.append_eq_nil.mp hq).1
    simp [protobomBytes] at this
  · intro b hb
    rw [hshape] at hb
    exact joinBytes_valid (by decide) _ hall b hb

/-- Bytes of the UUID-style seed "123e-456" used to witness C9. -/
def uuidBytes0 : List Nat := [49, 50, 51, 101, 45, 52, 53, 54]

/-- Witness for C9: on the seed "a b@c" (space separator, invalid '@') the
identifier is nonempty, "protobom-"-prefixed and fully identifier-safe. -/
theorem newNodeIdentifier_safe_witness :
    NewNodeIdentifier uuidBytes0 [[97, 32, 98, 64, 99]] ≠ [] ∧
    (∃ rest, NewNodeIdentifier uuidBytes0 [[97, 32, 98, 64, 99]] =
      protobomBytes ++ 45 :: rest) ∧
    ∀ b ∈ NewNodeIdentifier uuidBytes0 [[97, 32, 98, 64, 99]],
      isValidIDChar b = true :=
  newNodeIdentifier_safe uuidBytes0 [[97, 32, 98, 64, 99]] (by decide)

/-- An SBOM document handed to the writer (`sbom.Document`); `WriteStream`
receives it by pointer, modelled as `Option Document` with `none` for nil. -/
structure Document where
  nodeList : NodeList

/-- An output stream (`io.WriteCloser`): the sequence of chunks written so
far. -/
structure WStream where
  contents : List String

/-- The serializer calls `WriteStream` can perform, recorded as a trace so the
absence of effects is observable. -/
inductive WriteEvent where
  | serialized
  | rendered
  deriving DecidableEq, Repr

/-- The `serializer.Serializer` interface: `Serialize` produces a native
document of type `N`, `Render` writes it to a stream. -/
structure SerializerI (N : Type) where
  Serialize : Document → Except String N
  Render : N → WStream → Except String WStream

/-- The `writer.Writer` of the unnamed writer source file, over a serializer
with native document type `N`. -/
structure Writer (N : Type) where
  serializer : SerializerI N
  ident : Nat := 4

/-- WriteStream of the unnamed writer source file: a nil SBOM is rejected
before any serializer call; otherwise the document is serialized and the
native form rendered to the stream, each failure wrapped into an error. The
returned triple is (result, final stream, trace of serializer calls). -/
def WriteStream {N : Type} (w : Writer N) (bom : Option Document)
    (wr : WStream) : Except String Unit × WStream × List WriteEvent :=
  match bom with
  | none => (Except.error "unable to write sbom to stream, SBOM is nil", wr, [])
  | some b =>
    match w.serializer.Serialize b with
    | Except.error e =>
      (Except.error ("serializing SBOM to native format: " ++ e), wr,
        [WriteEvent.serialized])
    | Except.ok nativeDoc =>
      match w.serializer.Render nativeDoc wr with
      | Except.error e =>
        (Except.error ("writing rendered document to string: " ++ e), wr,
          [WriteEvent.serialized, WriteEvent.rendered])
      | Except.ok wr2 =>
        (Except.ok (), wr2, [WriteEvent.serialized, WriteEvent.rendered])

/-- C10: for every writer and stream, `WriteStream` on a nil SBOM returns an
error, leaves the stream untouched, and performs neither serialization nor
rendering (empty call trace). -/
theorem writeStream_nil_bom {N : Type} (w : Writer N) (wr : WStream) :
    (∃ msg, (WriteStream w none wr).1 = Except.error msg) ∧
    (WriteStream w none wr).2.1 = wr ∧
    (WriteStream w none wr).2.2 = [] :=
  ⟨⟨"unable to write sbom to stream, SBOM is nil", rfl⟩, rfl, rfl⟩

/-- A concrete writer over the trivial native document type. -/
def trivialWriter : Writer Unit :=
  { serializer :=
      { Serialize := fun _ => Except.ok (),
        Render := fun _ wr => Except.ok { contents := wr.contents ++ ["output"] } } }

/-- Witness for C10: the nil-document contract instantiated on a concrete
writer and an empty stream. -/
theorem writeStream_nil_bom_witness :
    (∃ msg, (WriteStream trivialWriter none { contents := [] }).1 =
      Except.error msg) ∧
    (WriteStream trivialWriter none { contents := [] }).2.1 =
      { contents := [] } ∧
    (WriteStream trivialWriter none { contents := [] }).2.2 = [] :=
  writeStream_nil_bom trivialWriter { contents := [] }

end Protobom
